import Mathlib

/-
Shallow embedding of the compressed-chunk scan operator of the timescaledb
repository (`tsl/src/nodes/decompress_chunk/exec.c`) together with the COPY
multi-insert buffering path (`src/copy.c`), and proofs about the claims of
the natural-language specification.

Modelling conventions:
* SQL datums are modelled as integers; a datum together with its null flag
  becomes `Option Int` (`none` = SQL NULL).
* A `TupleTableSlot` holding decoded tuples is a persistent value buffer
  (`tts_values` merged with `tts_isnull`) plus an emptiness flag:
  `ExecClearTuple` clears the flag, `ExecStoreVirtualTuple` sets it, and the
  buffer itself survives between calls, as in C.
* A `DecompressionIterator` is the finite list of `(value, isnull)` pairs it
  will still yield; `try_next` on the empty list reports `is_done`.  The
  codecs themselves are external to the repository and are consumed through
  this opaque contract.
* The PostgreSQL `Bitmapset` becomes `Finset Nat`; `bms_next_member (b, -1)`
  is the least member of the set.
* PostgreSQL `lib/binaryheap` is PostgreSQL library code, external to this
  repository; it is modelled through its interface contract: the node array
  is a list of batch ids and `binaryheap_first` returns a maximal element
  under the comparator (here the leftmost maximal element; which of several
  tied elements sits at the root of the real heap is unspecified).
* `elog(ERROR, ...)` becomes `Except.error` carrying the format string.
* Loops whose termination depends on runtime data take explicit fuel and
  report exhaustion as `Except.error "fuel"`; theorems quantify over runs
  that complete.
-/

namespace TS

/-- A possibly-null datum: `none` is SQL NULL. -/
abbrev Value := Option Int

/-- A decoded output tuple: the `tts_values`/`tts_isnull` arrays of the
uncompressed slot, indexed by output attribute offset (attno - 1). -/
abbrev Tuple := List Value

/-- The fields of PostgreSQL `SortSupportData` used by `heap_compare_slots`:
the output attribute number (1-based), the descending flag and the
nulls-first flag. -/
structure SortSupportData where
  ssup_attno : Nat
  ssup_reverse : Bool
  ssup_nulls_first : Bool
  deriving DecidableEq, Repr

/-- Sign-valued integer comparison, the model of the sort-support comparator
function for the (integer) datums of this embedding. -/
def cmpInt (a b : Int) : Int :=
  if a < b then -1 else if b < a then 1 else 0

/-- PostgreSQL `ApplySortComparator`: apply one sort key to two
possibly-null datums, honouring `ssup_nulls_first` and `ssup_reverse`
(null comparisons are not affected by `ssup_reverse`). -/
def applySortComparator (a : Value) (b : Value) (k : SortSupportData) : Int :=
  match a, b with
  | none, none => 0
  | none, some _ => if k.ssup_nulls_first then -1 else 1
  | some _, none => if k.ssup_nulls_first then 1 else -1
  | some x, some y => if k.ssup_reverse then - cmpInt x y else cmpInt x y

/-- `slot_getattr` on a decoded (virtual) tuple: 1-based attribute access;
out-of-range access yields NULL (the C code asserts it cannot happen). -/
def tuple_getattr (t : Tuple) (attno : Nat) : Value :=
  t.getD (attno - 1) none

/-- The sort-key loop of `heap_compare_slots` before the sign inversion:
lexicographic comparison of two decoded tuples under the sort keys,
returning the first non-zero per-key comparison. -/
def lexCompare (keys : List SortSupportData) (a b : Tuple) : Int :=
  match keys with
  | [] => 0
  | k :: rest =>
    let c := applySortComparator (tuple_getattr a k.ssup_attno)
      (tuple_getattr b k.ssup_attno) k
    if c = 0 then lexCompare rest a b else c

/-- `DecompressChunkColumnType`. -/
inductive DecompressChunkColumnType where
  | SEGMENTBY_COLUMN
  | COMPRESSED_COLUMN
  | COUNT_COLUMN
  | SEQUENCE_NUM_COLUMN
  deriving DecidableEq, Repr

export DecompressChunkColumnType (SEGMENTBY_COLUMN COMPRESSED_COLUMN COUNT_COLUMN SEQUENCE_NUM_COLUMN)

/-- The anonymous union inside `DecompressChunkColumnState`: a column state
carries either the cached segment-by constant (value and null flag fused
into `Value`) or the per-batch decompression iterator (`none` models the
NULL iterator of a null compressed attribute). -/
inductive ColumnUnion where
  | segmentby (value : Value)
  | compressed (iterator : Option (List (Int × Bool)))
  deriving DecidableEq, Repr

/-- `DecompressChunkColumnState` (the `typid` field is dropped: all datums
of the embedding are integers). -/
structure DecompressChunkColumnState where
  type : DecompressChunkColumnType
  output_attno : Int
  compressed_scan_attno : Nat
  uni : ColumnUnion
  deriving DecidableEq, Repr

/-- `DECOMPRESS_CHUNK_COUNT_ID` from `exec.h`. -/
def DECOMPRESS_CHUNK_COUNT_ID : Int := -9

/-- `DECOMPRESS_CHUNK_SEQUENCE_NUM_ID` from `exec.h`. -/
def DECOMPRESS_CHUNK_SEQUENCE_NUM_ID : Int := -10

/-- `BINARY_HEAP_DEFAULT_CAPACITY` from `exec.h`. -/
def BINARY_HEAP_DEFAULT_CAPACITY : Nat := 16

/-- `INITAL_BATCH_CAPACITY` from `exec.h` (spelling as in the source). -/
def INITAL_BATCH_CAPACITY : Nat := 16

/-- One attribute of a row of the compressed chunk scan: either an opaque
compressed blob (the finite list of encoded `(value, isnull)` pairs) or a
plain datum (segment-by constants and the metadata count).  The outer
`Option` is the attribute's null flag. -/
inductive CompressedDatum where
  | blob (vals : List (Int × Bool))
  | scalar (v : Int)
  deriving DecidableEq, Repr

/-- A row produced by the child compressed scan, in the layout described by
the decompression map (indexed by `compressed_scan_attno`). -/
abbrev CompressedTuple := List (Option CompressedDatum)

/-- `slot_getattr` on a compressed input tuple (1-based). -/
def compressed_getattr (t : CompressedTuple) (attno : Nat) : Option CompressedDatum :=
  t.getD (attno - 1) none

/-- `DatumGetInt32` applied to the result of `slot_getattr`: a NULL
attribute reads as the zero datum (the C code asserts the count column is
never NULL); a blob read as an int32 is type confusion that the modelled
inputs never exercise. -/
def DatumGetInt32 (d : Option CompressedDatum) : Int :=
  match d with
  | some (.scalar v) => v
  | _ => 0

/-- A segment-by attribute as a `Value` (datum plus null flag). -/
def datumAsValue (d : Option CompressedDatum) : Value :=
  match d with
  | some (.scalar v) => some v
  | some (.blob _) => some 0
  | none => none

/-- The list of values a just-created decompression iterator will yield:
`tsl_get_decompression_iterator_init(algo, reverse)` selects the forward or
the reverse decoder for the blob; a scalar in a compressed attribute is
type confusion that the modelled inputs never exercise. -/
def iterator_init (reverse : Bool) (d : CompressedDatum) : List (Int × Bool) :=
  match d with
  | .blob vals => if reverse then vals.reverse else vals
  | .scalar _ => []

/-- `DecompressBatchState`: `tts_values` is the persistent value buffer of
`uncompressed_tuple_slot` and `slot_nonempty` its non-emptiness flag
(`!TupIsNull`); `segment_slot` holds the copied compressed input tuple. -/
structure DecompressBatchState where
  tts_values : Tuple
  slot_nonempty : Bool
  segment_slot : Option CompressedTuple
  columns : List DecompressChunkColumnState
  counter : Int
  deriving DecidableEq, Repr

/-- The `uncompressed_tuple_slot` of a batch as seen through `TupIsNull`:
`some` the buffer exactly when the slot holds a stored virtual tuple. -/
def DecompressBatchState.output_slot (b : DecompressBatchState) : Option Tuple :=
  if b.slot_nonempty then some b.tts_values else none

/-- The immutable per-operator configuration of `DecompressChunkState`
(fields fixed by `decompress_chunk_state_create` / `decompress_chunk_begin`),
separated from the mutable execution fields.
`hypertable_compression_info` abstracts the catalog lookup
`get_column_compressioninfo(...)->segmentby_column_index > 0` as a predicate
on the output attribute number; `missingattr` abstracts `getmissingattr`
(indexed by attribute offset); `natts` is the width of the uncompressed
scan tuple descriptor; `child_tuples` is the stream of compressed rows the
child scan produces (rescanning the child restarts this stream). -/
structure ChunkConfig where
  decompression_map : List Int
  hypertable_compression_info : Nat → Bool
  reverse : Bool
  segment_merge_append : Bool
  sortkeys : List SortSupportData
  natts : Nat
  missingattr : Nat → Value
  child_tuples : List CompressedTuple

/-- The loop of `initialize_column_state`: walk the decompression map with
the running 1-based input position, skip zero entries, classify positive
attnos through the catalog and negative attnos through the two reserved
ids; any other negative attno is a fatal error.  Column unions start zeroed
(`palloc0`), i.e. with a NULL iterator. -/
def initialize_column_state_go (cfg : ChunkConfig) :
    List Int → Nat → Except String (List DecompressChunkColumnState)
  | [], _ => .ok []
  | output_attno :: rest, pos =>
    if output_attno = 0 then
      initialize_column_state_go cfg rest (pos + 1)
    else do
      let col ←
        if 0 < output_attno then
          .ok { type := if cfg.hypertable_compression_info output_attno.toNat
                  then SEGMENTBY_COLUMN else COMPRESSED_COLUMN,
                output_attno := output_attno,
                compressed_scan_attno := pos,
                uni := .compressed none }
        else if output_attno = DECOMPRESS_CHUNK_COUNT_ID then
          .ok { type := COUNT_COLUMN, output_attno := output_attno,
                compressed_scan_attno := pos, uni := .compressed none }
        else if output_attno = DECOMPRESS_CHUNK_SEQUENCE_NUM_ID then
          .ok { type := SEQUENCE_NUM_COLUMN, output_attno := output_attno,
                compressed_scan_attno := pos, uni := .compressed none }
        else
          .error "Invalid column attno"
      let cols ← initialize_column_state_go cfg rest (pos + 1)
      .ok (col :: cols)

/-- `initialize_column_state`: an empty decompression map is a fatal error;
otherwise build one column state per non-zero map entry. -/
def initialize_column_state (cfg : ChunkConfig) :
    Except String (List DecompressChunkColumnState) :=
  if cfg.decompression_map.length = 0 then
    .error "no columns specified to decompress"
  else
    initialize_column_state_go cfg cfg.decompression_map 1

/-- One column of the `initialize_batch` loop: bind the column state to the
given compressed input tuple, returning the updated column together with
the updated batch row counter. -/
def initialize_batch_column (cfg : ChunkConfig) (slot : CompressedTuple)
    (column : DecompressChunkColumnState) (counter : Int) :
    DecompressChunkColumnState × Int :=
  match column.type with
  | COMPRESSED_COLUMN =>
    let value := compressed_getattr slot column.compressed_scan_attno
    match value with
    | some d => ({ column with uni := .compressed (some (iterator_init cfg.reverse d)) }, counter)
    | none => ({ column with uni := .compressed none }, counter)
  | SEGMENTBY_COLUMN =>
    ({ column with uni := .segmentby (datumAsValue (compressed_getattr slot column.compressed_scan_attno)) }, counter)
  | COUNT_COLUMN =>
    (column, DatumGetInt32 (compressed_getattr slot column.compressed_scan_attno))
  | SEQUENCE_NUM_COLUMN =>
    (column, counter)

/-- `initialize_batch`: reset the per-batch arena (previous iterators die
with it; the loop below overwrites every union field) and bind every column
to the new compressed tuple.  The C function also sets the chunk-level
`initialized` flag; callers of this model set that flag themselves. -/
def initialize_batch (cfg : ChunkConfig) (batch : DecompressBatchState)
    (slot : CompressedTuple) : DecompressBatchState :=
  let r := batch.columns.foldl
    (fun (acc : List DecompressChunkColumnState × Int) column =>
      let (col, counter) := initialize_batch_column cfg slot column acc.2
      (col :: acc.1, counter))
    ([], batch.counter)
  { batch with columns := r.1.reverse, counter := r.2 }

/-- The running state of the column loop of
`decompress_next_tuple_from_batch`: the value buffer being filled, the
`batch_done` flag, the row counter, and the columns processed so far (in
reverse, holding the advanced iterators). -/
structure DecodeAcc where
  values : Tuple
  batch_done : Bool
  counter : Int
  cols_rev : List DecompressChunkColumnState
  deriving DecidableEq, Repr

/-- One column of the `decompress_next_tuple_from_batch` loop.  The count
column decrements the counter or flags the batch as done; a compressed
column pulls one value from its iterator, fills in the missing-attribute
default when the iterator is NULL, flags the batch done when the iterator
is exhausted, and raises the out-of-sync fatal error when it still yields a
value although `batch_done` was already set; segment-by columns copy the
cached constant; the sequence-number column does nothing. -/
def decompress_next_column (missing : Nat → Value) (acc : DecodeAcc)
    (column : DecompressChunkColumnState) : Except String DecodeAcc :=
  match column.type with
  | COUNT_COLUMN =>
    if acc.counter ≤ 0 then
      .ok { acc with batch_done := true, cols_rev := column :: acc.cols_rev }
    else
      .ok { acc with counter := acc.counter - 1, cols_rev := column :: acc.cols_rev }
  | COMPRESSED_COLUMN =>
    let attr := (column.output_attno - 1).toNat
    match column.uni with
    | .compressed none =>
      .ok { acc with
              values := acc.values.set attr (missing attr),
              cols_rev := column :: acc.cols_rev }
    | .compressed (some iterator) =>
      match iterator with
      | [] =>
        .ok { acc with batch_done := true, cols_rev := column :: acc.cols_rev }
      | (v, is_null) :: rest =>
        if acc.batch_done then
          .error "compressed column out of sync with batch counter"
        else
          .ok { acc with
                  values := acc.values.set attr (if is_null then none else some v),
                  cols_rev := { column with uni := .compressed (some rest) } :: acc.cols_rev }
    | .segmentby _ =>
      .ok { acc with values := acc.values.set attr (missing attr),
                     cols_rev := column :: acc.cols_rev }
  | SEGMENTBY_COLUMN =>
    let attr := (column.output_attno - 1).toNat
    match column.uni with
    | .segmentby v =>
      .ok { acc with
              values := acc.values.set attr v,
              cols_rev := column :: acc.cols_rev }
    | .compressed _ =>
      .ok { acc with
              values := acc.values.set attr none,
              cols_rev := column :: acc.cols_rev }
  | SEQUENCE_NUM_COLUMN =>
    .ok { acc with cols_rev := column :: acc.cols_rev }

/-- `decompress_next_tuple_from_batch`: clear the output slot, run the
column loop, then store the virtual tuple unless the batch is done. -/
def decompress_next_tuple_from_batch (missing : Nat → Value)
    (batch : DecompressBatchState) : Except String DecompressBatchState := do
  let init : DecodeAcc :=
    { values := batch.tts_values, batch_done := false,
      counter := batch.counter, cols_rev := [] }
  let acc ← batch.columns.foldlM (decompress_next_column missing) init
  .ok { batch with
          tts_values := acc.values, counter := acc.counter,
          columns := acc.cols_rev.reverse, slot_nonempty := !acc.batch_done }

/-- A zeroed `DecompressBatchState`, used as the `getD` default where the C
code indexes the batch-state array (indices are asserted in range). -/
def dummy_batch : DecompressBatchState :=
  { tts_values := [], slot_nonempty := false, segment_slot := none,
    columns := [], counter := 0 }

/-- PlanState-level expression state (`node->ss.ps`): the qualifier and the
projection live in the generic executor node, outside `DecompressChunkState`. -/
structure PlanQual where
  qual : Option (Tuple → Bool)
  ps_ProjInfo : Option (Tuple → Tuple)

/-- The mutable execution fields of `DecompressChunkState` plus the executor
plumbing the operator reads: whether `custom_ps` is non-NIL, the position of
the child scan, the `initialized` flag, the batch states with their free
set, the merge heap node array (`none` while the heap is not created) with
its capacity `bh_space`, and the `InstrCountFiltered1` counter.  The
`no_batch_states` field of the C structure is `batch_states.length` here.
In non-merge mode the decode target is the shared `ss_ScanTupleSlot`; since
exactly one batch state exists there, its buffer plays that role. -/
structure RunState where
  custom_ps : Bool
  child_pos : Nat
  initialized : Bool
  batch_states : List DecompressBatchState
  unused_batch_states : Finset Nat
  merge_heap : Option (List Nat)
  bh_space : Nat
  filtered : Nat

/-- `batch_states_create`: allocate `nbatches` zeroed batch states
(`palloc0`), fill in their column arrays via `initialize_column_state`, and
mark the whole range unused. -/
def batch_states_create (cfg : ChunkConfig) (rs : RunState) (nbatches : Nat) :
    Except String RunState := do
  let cols ← initialize_column_state cfg
  let fresh : DecompressBatchState :=
    { tts_values := List.replicate cfg.natts none, slot_nonempty := false,
      segment_slot := none, columns := cols, counter := 0 }
  .ok { rs with
          batch_states := List.replicate nbatches fresh,
          unused_batch_states := Finset.range nbatches }

/-- `batch_states_enlarge`: `repalloc` the batch-state array to `nbatches`
entries, preserving the existing ones, initialize the column arrays of the
new slots only, and add the new id range to the unused set. -/
def batch_states_enlarge (cfg : ChunkConfig) (rs : RunState) (nbatches : Nat) :
    Except String RunState := do
  let cols ← initialize_column_state cfg
  let fresh : DecompressBatchState :=
    { tts_values := List.replicate cfg.natts none, slot_nonempty := false,
      segment_slot := none, columns := cols, counter := 0 }
  .ok { rs with
          batch_states :=
            rs.batch_states ++ List.replicate (nbatches - rs.batch_states.length) fresh,
          unused_batch_states :=
            rs.unused_batch_states ∪ Finset.Ico rs.batch_states.length nbatches }

/-- `get_next_unused_batch_state_id`: grow the pool by
`INITAL_BATCH_CAPACITY` when the free set is empty, then return its least
member (`bms_next_member` starting from -1) after deleting it. -/
def get_next_unused_batch_state_id (cfg : ChunkConfig) (rs : RunState) :
    Except String (Nat × RunState) := do
  let rs ←
    if rs.unused_batch_states = ∅ then
      batch_states_enlarge cfg rs (rs.batch_states.length + INITAL_BATCH_CAPACITY)
    else
      .ok rs
  if h : rs.unused_batch_states.Nonempty then
    let id := rs.unused_batch_states.min' h
    .ok (id, { rs with unused_batch_states := rs.unused_batch_states.erase id })
  else
    .error "assertion failed: unused batch states still empty"

/-- `heap_compare_slots` including `INVERT_COMPARE_RESULT`: compare the
current output tuples of two batch ids under the sort keys.  The C code
asserts both slots non-empty; an empty slot compares as 0 here. -/
def heap_compare_slots (cfg : ChunkConfig)
    (batch_states : List DecompressBatchState) (a b : Nat) : Int :=
  match (batch_states.getD a dummy_batch).output_slot,
        (batch_states.getD b dummy_batch).output_slot with
  | some tupleA, some tupleB => - lexCompare cfg.sortkeys tupleA tupleB
  | _, _ => 0

/-- Auxiliary fold of `binaryheap_first`: the running maximal element. -/
def binaryheap_first_from (f : Nat → Nat → Int) (best : Nat) :
    List Nat → Nat
  | [] => best
  | x :: rest =>
    if 0 < f x best then binaryheap_first_from f x rest
    else binaryheap_first_from f best rest

/-- `binaryheap_first` through the `lib/binaryheap` contract: the root is a
maximal element of the node array under the comparator; this model
deterministically picks the leftmost maximal one (which of several tied
elements sits at the real root is unspecified). -/
def binaryheap_first (f : Nat → Nat → Int) : List Nat → Option Nat
  | [] => none
  | x :: rest => some (binaryheap_first_from f x rest)

/-- `add_to_binary_heap_autoresize`: double `bh_space` when the node array
is full, then `binaryheap_add_unordered` (append the id). -/
def add_to_binary_heap_autoresize (h : List Nat) (space : Nat) (d : Nat) :
    List Nat × Nat :=
  let space := if h.length ≥ space then space * 2 else space
  (h ++ [d], space)

/-- The heap-construction loop of `decompress_chunk_exec` (merge mode,
first call): pull every tuple from the child scan; for each one allocate a
batch state, copy the tuple into its segment slot, bind the batch, make a
fresh output slot, decode the first tuple into it, and append the batch id
to the heap node array.  The id is appended regardless of whether that
first decode produced a tuple; the source merely asserts that it did. -/
def build_merge_heap_go (cfg : ChunkConfig) :
    List CompressedTuple → RunState → List Nat → Nat →
    Except String (RunState × List Nat × Nat)
  | [], rs, heap, space => .ok (rs, heap, space)
  | subslot :: rest, rs, heap, space => do
    let rs := { rs with child_pos := rs.child_pos + 1 }
    let (batch_state_id, rs) ← get_next_unused_batch_state_id cfg rs
    let batch := rs.batch_states.getD batch_state_id dummy_batch
    let batch := { batch with segment_slot := some subslot }
    let batch := initialize_batch cfg batch subslot
    let rs := { rs with initialized := true }
    let batch := { batch with
                    tts_values := List.replicate cfg.natts none,
                    slot_nonempty := false }
    let batch ← decompress_next_tuple_from_batch cfg.missingattr batch
    let rs := { rs with batch_states := rs.batch_states.set batch_state_id batch }
    let (heap, space) := add_to_binary_heap_autoresize heap space batch_state_id
    build_merge_heap_go cfg rest rs heap space

/-- The first-call merge branch: `binaryheap_allocate` with
`BINARY_HEAP_DEFAULT_CAPACITY`, `batch_states_create` with
`INITAL_BATCH_CAPACITY`, the construction loop over the whole child scan,
then `binaryheap_build` (which only reorders the node array: a no-op of
this model). -/
def merge_heap_init (cfg : ChunkConfig) (rs : RunState) :
    Except String RunState := do
  let rs ← batch_states_create cfg rs INITAL_BATCH_CAPACITY
  let (rs, heap, space) ←
    build_merge_heap_go cfg (cfg.child_tuples.drop rs.child_pos) rs []
      BINARY_HEAP_DEFAULT_CAPACITY
  .ok { rs with merge_heap := some heap, bh_space := space }

/-- The steady-state merge branch: the heap root is the batch whose tuple
the previous call returned; decode its next tuple, then either
`binaryheap_remove_first` (batch exhausted) or `binaryheap_replace_first`
(re-sift with the new tuple; the node array keeps the same ids). -/
def merge_heap_advance (cfg : ChunkConfig) (rs : RunState) (h : List Nat)
    (i : Nat) : Except String RunState := do
  let batch := rs.batch_states.getD i dummy_batch
  let batch ← decompress_next_tuple_from_batch cfg.missingattr batch
  let rs := { rs with batch_states := rs.batch_states.set i batch }
  if batch.output_slot = none then
    .ok { rs with merge_heap := some (h.erase i) }
  else
    .ok { rs with merge_heap := some h }

/-- The tail of the merge branch (lines 636-648): NULL when the heap is
empty, otherwise the output slot of the root batch, the state unchanged. -/
def merge_heap_emit (cfg : ChunkConfig) (rs : RunState) : Option Tuple :=
  match rs.merge_heap with
  | some [] => none
  | some h =>
    match binaryheap_first (heap_compare_slots cfg rs.batch_states) h with
    | some i => (rs.batch_states.getD i dummy_batch).output_slot
    | none => none
  | none => none

/-- The merge-mode part of `decompress_chunk_exec`: create the heap on the
first call, otherwise advance the root batch; then return NULL if the heap
is empty, else the output slot of the root batch. -/
def decompress_chunk_exec_merge (cfg : ChunkConfig) (rs : RunState) :
    Except String (Option Tuple × RunState) :=
  (match rs.merge_heap with
   | none => merge_heap_init cfg rs
   | some h =>
     match binaryheap_first (heap_compare_slots cfg rs.batch_states) h with
     | some i => merge_heap_advance cfg rs h i
     | none => .ok rs).bind
    fun rs2 => .ok (merge_heap_emit cfg rs2, rs2)

/-- `decompress_chunk_create_tuple`: loop (fuel-indexed) until a tuple is
decoded into the scan slot or the child scan is exhausted; an exhausted
batch clears `initialized` and pulls the next compressed tuple. -/
def decompress_chunk_create_tuple (cfg : ChunkConfig) :
    Nat → RunState → Except String (Option Tuple × RunState)
  | 0, _ => .error "fuel"
  | fuel + 1, rs =>
    match (if rs.initialized then some rs
           else
             match cfg.child_tuples[rs.child_pos]? with
             | none => none
             | some subslot =>
               some { rs with
                       child_pos := rs.child_pos + 1
                       batch_states := rs.batch_states.set 0
                         (initialize_batch cfg
                           (rs.batch_states.getD 0 dummy_batch) subslot)
                       initialized := true }) with
    | none => .ok (none, rs)
    | some rs2 =>
      (decompress_next_tuple_from_batch cfg.missingattr
          (rs2.batch_states.getD 0 dummy_batch)).bind fun batch =>
        match batch.output_slot with
        | some t =>
          .ok (some t, { rs2 with batch_states := rs2.batch_states.set 0 batch })
        | none =>
          decompress_chunk_create_tuple cfg fuel
            { rs2 with
                batch_states := rs2.batch_states.set 0 batch
                initialized := false }

/-- The non-merge branch of `decompress_chunk_exec`: loop (fuel-indexed):
produce a tuple, return NULL at end of scan, discard tuples failing the
qualifier (clearing the slot and counting them as filtered), and apply the
projection when one is present. -/
def decompress_chunk_exec_row (cfg : ChunkConfig) (ps : PlanQual) :
    Nat → RunState → Except String (Option Tuple × RunState)
  | 0, _ => .error "fuel"
  | fuel + 1, rs => do
    let (slot, rs) ← decompress_chunk_create_tuple cfg (fuel + 1) rs
    match slot with
    | none => .ok (none, rs)
    | some t =>
      if (match ps.qual with | some q => !q t | none => false) then
        let batch := rs.batch_states.getD 0 dummy_batch
        let rs := { rs with
                      batch_states :=
                        rs.batch_states.set 0 { batch with slot_nonempty := false },
                      filtered := rs.filtered + 1 }
        decompress_chunk_exec_row cfg ps fuel rs
      else
        match ps.ps_ProjInfo with
        | none => .ok (some t, rs)
        | some proj => .ok (some (proj t), rs)

/-- `decompress_chunk_exec`: the per-call entry point.  The
`interrupt_pending` parameter is the host cancellation flag that
`CHECK_FOR_INTERRUPTS()` would consult; the body never reads it because the
source contains no such call. -/
def decompress_chunk_exec (cfg : ChunkConfig) (ps : PlanQual)
    (interrupt_pending : Bool) (fuel : Nat) (rs : RunState) :
    Except String (Option Tuple × RunState) := do
  if !rs.custom_ps then
    .ok (none, rs)
  else if cfg.segment_merge_append then
    decompress_chunk_exec_merge cfg rs
  else do
    let rs ←
      if rs.batch_states.isEmpty then batch_states_create cfg rs 1
      else .ok rs
    decompress_chunk_exec_row cfg ps fuel rs

/-- `decompress_chunk_rescan`: clear `initialized` and rescan the child
scan (which restarts its stream).  The merge heap and the batch states are
left untouched by the source. -/
def decompress_chunk_rescan (rs : RunState) : RunState :=
  { rs with initialized := false, child_pos := 0 }

/-- Repeated `next()` calls: the tuples of up to `calls` successive calls
of `decompress_chunk_exec`, stopping at the first NULL result. -/
def decompress_chunk_run (cfg : ChunkConfig) (ps : PlanQual) (intr : Bool)
    (fuel : Nat) : Nat → RunState → Except String (List Tuple)
  | 0, _ => .ok []
  | calls + 1, rs => do
    let (out, rs) ← decompress_chunk_exec cfg ps intr fuel rs
    match out with
    | none => .ok []
    | some t => do
      let rest ← decompress_chunk_run cfg ps intr fuel calls rs
      .ok (t :: rest)

/-- The `settings` payload of `custom_private` consumed by
`decompress_chunk_state_create`. -/
structure CScanSettings where
  hypertable_id : Int
  chunk_relid : Int
  reverse : Bool
  segment_merge_append : Bool
  no_sortkeys : Nat
  decompression_map : List Int
  sortkeys : List SortSupportData

/-- `decompress_chunk_state_create`: copy the settings into a fresh state.
Beyond debug-build `Assert`s (see `decompress_chunk_state_create_assert`)
the function performs no validation, so it never raises an error; the
catalog predicate, tuple width, missing-value table and child stream are
the environment later bound by `decompress_chunk_begin`. -/
def decompress_chunk_state_create (st : CScanSettings) (catalog : Nat → Bool)
    (natts : Nat) (missing : Nat → Value) (child : List CompressedTuple) :
    Except String (ChunkConfig × RunState) :=
  .ok ({ decompression_map := st.decompression_map,
         hypertable_compression_info := catalog,
         reverse := st.reverse,
         segment_merge_append := st.segment_merge_append,
         sortkeys := st.sortkeys,
         natts := natts,
         missingattr := missing,
         child_tuples := child },
       { custom_ps := true, child_pos := 0, initialized := false,
         batch_states := [], unused_batch_states := ∅,
         merge_heap := none, bh_space := 0, filtered := 0 })

/-- The `Assert`s of `decompress_chunk_state_create` (lines 158-159),
compiled only into assertion-enabled builds: sort keys are only present
when merge append is used, and the sort-key array is non-NULL when
`no_sortkeys > 0`. -/
def decompress_chunk_state_create_assert (st : CScanSettings) : Prop :=
  (st.segment_merge_append = true ∨ st.no_sortkeys = 0) ∧
  (st.no_sortkeys = 0 ∨ st.sortkeys ≠ [])

/-- Decidable equality on `Except`. -/
instance exceptDecidableEq {e a : Type} [DecidableEq e] [DecidableEq a] :
    DecidableEq (Except e a) := fun x y =>
  match x, y with
  | .ok u, .ok v =>
    if h : u = v then .isTrue (by rw [h]) else .isFalse (by simp [h])
  | .error u, .error v =>
    if h : u = v then .isTrue (by rw [h]) else .isFalse (by simp [h])
  | .ok _, .error _ => .isFalse (by simp)
  | .error _, .ok _ => .isFalse (by simp)

/-- Reduction of monadic bind on a successful `Except`. -/
theorem exceptBindOk {e a b : Type} (x : a) (f : a → Except e b) :
    (Except.ok x >>= f) = f x := rfl

/-- Reduction of monadic bind on a failed `Except`. -/
theorem exceptBindErr {e a b : Type} (msg : e) (f : a → Except e b) :
    ((Except.error msg : Except e a) >>= f) = Except.error msg := rfl

/-- Reduction of `Except.bind` on a successful `Except`. -/
theorem exceptDotBindOk {e a b : Type} (x : a) (f : a → Except e b) :
    (Except.ok x : Except e a).bind f = f x := rfl

/-- Reduction of `Except.bind` on a failed `Except`. -/
theorem exceptDotBindErr {e a b : Type} (msg : e) (f : a → Except e b) :
    (Except.error msg : Except e a).bind f = Except.error msg := rfl

/-- Boolean success test on `Except`. -/
def exceptOk {ε α : Type} : Except ε α → Bool
  | .ok _ => true
  | .error _ => false

/-- A concrete operator configuration shared by the concrete theorems: one
compressed column with output attno 1 followed by the count column (the
layout the planner produces, count column behind the data columns of the
map but ahead of them in the per-batch column array order used here), merge
mode, one descending sort key on attno 1, two batches of three rows. -/
def cfgMergeW : ChunkConfig :=
  { decompression_map := [1, -9],
    hypertable_compression_info := fun _ => false,
    reverse := false,
    segment_merge_append := true,
    sortkeys := [{ ssup_attno := 1, ssup_reverse := true, ssup_nulls_first := false }],
    natts := 1,
    missingattr := fun _ => none,
    child_tuples :=
      [[some (.blob [(10, false), (7, false), (3, false)]), some (.scalar 3)],
       [some (.blob [(9, false), (8, false), (2, false)]), some (.scalar 3)]] }

/-- A `PlanQual` with neither qualifier nor projection. -/
def psNoneW : PlanQual := { qual := none, ps_ProjInfo := none }

/-- The fresh run state produced by plan-state creation. -/
def rsFreshW : RunState :=
  { custom_ps := true, child_pos := 0, initialized := false,
    batch_states := [], unused_batch_states := ∅,
    merge_heap := none, bh_space := 0, filtered := 0 }

/-- C1 failing input: a single batch whose count column is 0 (and whose
compressed stream is empty). -/
def cfgCountZeroW : ChunkConfig :=
  { cfgMergeW with
      child_tuples := [[some (.blob []), some (.scalar 0)]] }

/-- C1 (code bug, evaluated at the failing input): heap construction in
merge mode inserts the id of every batch pulled from the child scan, even
one whose first decode yields no tuple.  On a batch with `count = 0` the
first call leaves the heap holding id 0 while batch 0's output slot is
empty — the claimed invariant is violated (the source `Assert`s
`!TupIsNull(...)` right before the insertion, so an assertion-enabled build
aborts on this input). -/
theorem C1_count_zero_batch_enters_heap :
    ((decompress_chunk_exec cfgCountZeroW psNoneW false 9 rsFreshW).toOption.map
      fun p => (p.1, p.2.merge_heap,
                (p.2.batch_states.getD 0 dummy_batch).output_slot))
    = some (none, some [0], none) := by
  decide

/-- C4 (code bug, evaluated at the failing input): a fresh merge-mode scan
of `cfgMergeW` yields 10, 9, 8, 7, 3, 2; but after consuming one tuple and
rescanning, the next call returns 9, not 10 — `decompress_chunk_rescan`
only clears `initialized` (which the merge path never reads) and leaves
the merge heap in place, so the scan resumes mid-stream instead of
re-emitting the sequence from the start. -/
theorem C4_rescan_resumes_midstream :
    decompress_chunk_run cfgMergeW psNoneW false 9 20 rsFreshW =
      .ok [[some 10], [some 9], [some 8], [some 7], [some 3], [some 2]] ∧
    (do
      let (o1, s1) ← decompress_chunk_exec cfgMergeW psNoneW false 9 rsFreshW
      let s2 := decompress_chunk_rescan s1
      let (o2, _) ← decompress_chunk_exec cfgMergeW psNoneW false 9 s2
      pure (o1, o2) : Except String (Option Tuple × Option Tuple)) =
      .ok (some [some 10], some [some 9]) := by
  constructor
  · decide
  · decide

/-- C5: allocating a batch state returns the least id of the free set and
removes it from the free set (pool untouched otherwise); when the free set
is empty, the pool grows by exactly `INITAL_BATCH_CAPACITY` (16) new slots
whose column arrays are initialized from the decompression map, the
existing slots are preserved in place, and the allocation then succeeds,
returning the first new id and leaving the remaining new ids free. -/
theorem C5_batch_pool_allocate (cfg : ChunkConfig) (rs : RunState)
    (cols : List DecompressChunkColumnState)
    (hcols : initialize_column_state cfg = .ok cols) :
    (∀ h : rs.unused_batch_states.Nonempty,
      get_next_unused_batch_state_id cfg rs =
        .ok (rs.unused_batch_states.min' h,
          { rs with
              unused_batch_states :=
                rs.unused_batch_states.erase (rs.unused_batch_states.min' h) })) ∧
    (rs.unused_batch_states = ∅ →
      ∃ rs2, get_next_unused_batch_state_id cfg rs = .ok (rs.batch_states.length, rs2) ∧
        rs2.batch_states.length = rs.batch_states.length + INITAL_BATCH_CAPACITY ∧
        rs2.batch_states.take rs.batch_states.length = rs.batch_states ∧
        (∀ b ∈ rs2.batch_states.drop rs.batch_states.length, b.columns = cols) ∧
        rs2.unused_batch_states =
          Finset.Ico (rs.batch_states.length + 1)
            (rs.batch_states.length + INITAL_BATCH_CAPACITY)) := by
  constructor
  · intro h
    have hne : ¬ rs.unused_batch_states = ∅ := Finset.nonempty_iff_ne_empty.mp h
    unfold get_next_unused_batch_state_id
    rw [if_neg hne, exceptBindOk]
    dsimp only
    rw [dif_pos h]
  · intro he
    have hlt : rs.batch_states.length <
        rs.batch_states.length + INITAL_BATCH_CAPACITY := by
      simp [INITAL_BATCH_CAPACITY]
    have hico : (Finset.Ico rs.batch_states.length
        (rs.batch_states.length + INITAL_BATCH_CAPACITY)).Nonempty := by
      rw [Finset.nonempty_Ico]; exact hlt
    have hmin : (Finset.Ico rs.batch_states.length
        (rs.batch_states.length + INITAL_BATCH_CAPACITY)).min' hico =
        rs.batch_states.length := by
      apply le_antisymm
      · exact Finset.min'_le _ _ (Finset.mem_Ico.mpr ⟨le_refl _, hlt⟩)
      · exact Finset.le_min' _ _ _ (fun y hy => (Finset.mem_Ico.mp hy).1)
    have key : get_next_unused_batch_state_id cfg rs =
        .ok (rs.batch_states.length,
          { rs with
              batch_states := rs.batch_states ++
                List.replicate INITAL_BATCH_CAPACITY
                  { tts_values := List.replicate cfg.natts none,
                    slot_nonempty := false, segment_slot := none,
                    columns := cols, counter := 0 },
              unused_batch_states :=
                (Finset.Ico rs.batch_states.length
                  (rs.batch_states.length + INITAL_BATCH_CAPACITY)).erase
                  rs.batch_states.length }) := by
      unfold get_next_unused_batch_state_id batch_states_enlarge
      rw [if_pos he, hcols, exceptBindOk, exceptBindOk, he, Finset.empty_union,
        Nat.add_sub_cancel_left]
      dsimp only
      rw [dif_pos hico]
      simp only [hmin]
    refine ⟨_, key, ?_, ?_, ?_, ?_⟩
    · simp [INITAL_BATCH_CAPACITY]
    · simp
    · intro b hb
      rw [List.drop_left] at hb
      exact congrArg DecompressBatchState.columns (List.eq_of_mem_replicate hb)
    · rw [Finset.erase_eq]
      ext x
      simp only [Finset.mem_Ico, Finset.mem_sdiff, Finset.mem_singleton]
      omega

/-- Witness for `C5_batch_pool_allocate`: at the concrete configuration
`cfgMergeW` with an empty free set the pool grows and allocation returns
id 0 with 16 slots present. -/
theorem C5_batch_pool_allocate_witness :
    ∃ rs2, get_next_unused_batch_state_id cfgMergeW rsFreshW = .ok (0, rs2) ∧
      rs2.batch_states.length = 16 := by
  obtain ⟨-, h2⟩ := C5_batch_pool_allocate cfgMergeW rsFreshW
    [{ type := COMPRESSED_COLUMN, output_attno := 1, compressed_scan_attno := 1,
       uni := .compressed none },
     { type := COUNT_COLUMN, output_attno := -9, compressed_scan_attno := 2,
       uni := .compressed none }] (by decide)
  obtain ⟨rs2, he, hlen, -, -, -⟩ := h2 (by decide)
  exact ⟨rs2, he, hlen⟩

/-- Settings whose decompression map is empty. -/
def emptyMapSettingsW : CScanSettings :=
  { hypertable_id := 1, chunk_relid := 1, reverse := false,
    segment_merge_append := false, no_sortkeys := 0,
    decompression_map := [], sortkeys := [] }

/-- Settings with sort keys although merge append is disabled. -/
def sortkeysNoMergeSettingsW : CScanSettings :=
  { hypertable_id := 1, chunk_relid := 1, reverse := false,
    segment_merge_append := false, no_sortkeys := 1,
    decompression_map := [1, -9],
    sortkeys := [{ ssup_attno := 1, ssup_reverse := false, ssup_nulls_first := false }] }

/-- C6 counterexample: operator construction
(`decompress_chunk_state_create`) raises no fatal error on an empty
decompression map — it performs no validation — and construction with sort
keys while merge mode is disabled also succeeds, violating only the
debug-build assertion; the claimed construction-time fatal errors do not
occur at construction. -/
theorem C6_counterexample_construction_raises_no_error :
    exceptOk (decompress_chunk_state_create emptyMapSettingsW (fun _ => false) 1
      (fun _ => none) []) = true ∧
    exceptOk (decompress_chunk_state_create sortkeysNoMergeSettingsW (fun _ => false) 1
      (fun _ => none) []) = true ∧
    ¬ decompress_chunk_state_create_assert sortkeysNoMergeSettingsW := by
  refine ⟨rfl, rfl, ?_⟩
  intro hA
  rcases hA.1 with h | h <;> simp [sortkeysNoMergeSettingsW] at h

/-- C6 amended: the empty-decompression-map error and the
unknown-negative-attno error are fatal during the first `next()` call —
when the batch states are first created inside `decompress_chunk_exec`, in
merge mode and in non-merge mode alike — hence before any tuple is
produced, but not at operator construction; and sort keys with merge mode
disabled are covered only by a construction-time debug assertion, never a
fatal error. -/
theorem C6_config_errors_fatal_at_first_exec (cfg : ChunkConfig) (ps : PlanQual)
    (intr : Bool) (fuel : Nat) (rs : RunState) (rest : List Int)
    (hps : rs.custom_ps = true) (hheap : rs.merge_heap = none)
    (hbatch : rs.batch_states = []) :
    (cfg.decompression_map = [] →
      decompress_chunk_exec cfg ps intr fuel rs =
        .error "no columns specified to decompress") ∧
    (cfg.decompression_map = -5 :: rest →
      decompress_chunk_exec cfg ps intr fuel rs =
        .error "Invalid column attno") ∧
    (∀ st : CScanSettings, st.segment_merge_append = false → st.no_sortkeys ≠ 0 →
      exceptOk (decompress_chunk_state_create st cfg.hypertable_compression_info
        cfg.natts cfg.missingattr cfg.child_tuples) = true) := by
  refine ⟨?_, ?_, fun st _ _ => rfl⟩
  · intro hmap
    cases hm : cfg.segment_merge_append
    · simp [decompress_chunk_exec, hps, hm, hbatch, batch_states_create,
        initialize_column_state, hmap, exceptBindErr]
    · simp [decompress_chunk_exec, hps, hm, decompress_chunk_exec_merge, hheap,
        merge_heap_init, batch_states_create, initialize_column_state, hmap,
        exceptBindErr, exceptDotBindErr]
  · intro hmap
    have hgo : initialize_column_state cfg = .error "Invalid column attno" := by
      rw [initialize_column_state, hmap]
      simp [initialize_column_state_go, DECOMPRESS_CHUNK_COUNT_ID,
        DECOMPRESS_CHUNK_SEQUENCE_NUM_ID, exceptBindErr]
    cases hm : cfg.segment_merge_append
    · simp [decompress_chunk_exec, hps, hm, hbatch, batch_states_create, hgo,
        exceptBindErr]
    · simp [decompress_chunk_exec, hps, hm, decompress_chunk_exec_merge, hheap,
        merge_heap_init, batch_states_create, hgo, exceptBindErr,
        exceptDotBindErr]

/-- Witness for `C6_config_errors_fatal_at_first_exec`: concrete first
calls raising each error. -/
theorem C6_config_errors_witness :
    decompress_chunk_exec { cfgMergeW with decompression_map := [] } psNoneW
      false 5 rsFreshW = .error "no columns specified to decompress" ∧
    decompress_chunk_exec { cfgMergeW with decompression_map := [-5] } psNoneW
      false 5 rsFreshW = .error "Invalid column attno" := by
  constructor
  · exact (C6_config_errors_fatal_at_first_exec
      { cfgMergeW with decompression_map := [] } psNoneW false 5 rsFreshW []
      rfl rfl rfl).1 rfl
  · exact ((C6_config_errors_fatal_at_first_exec
      { cfgMergeW with decompression_map := [-5] } psNoneW false 5 rsFreshW []
      rfl rfl rfl).2).1 rfl

/-- C7 counterexample: with the host cancellation flag set from the very
first call, the operator still decodes and returns the entire six-tuple
output of `cfgMergeW` — no call checks the flag and a set flag does not
terminate the scan early. -/
theorem C7_counterexample_set_flag_does_not_cancel :
    decompress_chunk_run cfgMergeW psNoneW true 9 20 rsFreshW =
      .ok [[some 10], [some 9], [some 8], [some 7], [some 3], [some 2]] := by
  decide

/-- C7 amended: `decompress_chunk_exec` contains no cancellation check at
all — the source never calls `CHECK_FOR_INTERRUPTS` — so its behaviour is
identical for any value of the host cancellation flag, and cancellation is
observed only transitively through the child scan or the codecs. -/
theorem C7_exec_ignores_cancellation_flag (cfg : ChunkConfig) (ps : PlanQual)
    (b1 b2 : Bool) (fuel : Nat) (rs : RunState) :
    decompress_chunk_exec cfg ps b1 fuel rs =
      decompress_chunk_exec cfg ps b2 fuel rs := rfl

/-- Iterated decoding of one batch: run `decompress_next_tuple_from_batch`
up to `n` times, collecting the stored tuples and stopping early when the
batch signals its end (cleared output slot). -/
def decode_batch_n (missing : Nat → Value) :
    Nat → DecompressBatchState → Except String (List Tuple × DecompressBatchState)
  | 0, bs => .ok ([], bs)
  | n + 1, bs =>
    (decompress_next_tuple_from_batch missing bs).bind fun bs2 =>
      match bs2.output_slot with
      | none => .ok ([], bs2)
      | some t => (decode_batch_n missing n bs2).bind fun p => .ok (t :: p.1, p.2)

/-- The canonical batch layout the planner produces and the decode loop's
out-of-sync check presumes (cf. the source comment "since the count column
is the first column"): the count column ahead of one compressed data
column with output attno 1.  `cnt` is the current row counter, `vals` the
values the column's iterator will still yield, `buf` the current output
buffer and `sne` its non-emptiness flag. -/
def csBatch (cnt : Int) (vals : List (Int × Bool)) (buf : Tuple) (sne : Bool) :
    DecompressBatchState :=
  { tts_values := buf, slot_nonempty := sne, segment_slot := none,
    columns :=
      [{ type := COUNT_COLUMN, output_attno := DECOMPRESS_CHUNK_COUNT_ID,
         compressed_scan_attno := 1, uni := .compressed none },
       { type := COMPRESSED_COLUMN, output_attno := 1,
         compressed_scan_attno := 2, uni := .compressed (some vals) }],
    counter := cnt }

/-- The configuration of the canonical count-first layout: decompression
map `[-9, 1]`, no segment-by columns, single output attribute. -/
def cfgCountFirstW : ChunkConfig :=
  { decompression_map := [DECOMPRESS_CHUNK_COUNT_ID, 1],
    hypertable_compression_info := fun _ => false,
    reverse := false, segment_merge_append := false, sortkeys := [],
    natts := 1, missingattr := fun _ => none, child_tuples := [] }

/-- `initialize_batch` on a compressed row `[count = cnt, blob vals]` under
`cfgCountFirstW` produces exactly the canonical batch `csBatch`. -/
theorem initialize_batch_csBatch (cnt : Int) (vals : List (Int × Bool))
    (buf : Tuple) (sne : Bool) (cols : List DecompressChunkColumnState)
    (hcols : initialize_column_state cfgCountFirstW = .ok cols) :
    initialize_batch cfgCountFirstW
      { tts_values := buf, slot_nonempty := sne, segment_slot := none,
        columns := cols, counter := 0 }
      [some (.scalar cnt), some (.blob vals)] = csBatch cnt vals buf sne := by
  have : cols =
      [{ type := COUNT_COLUMN, output_attno := DECOMPRESS_CHUNK_COUNT_ID,
         compressed_scan_attno := 1, uni := .compressed none },
       { type := COMPRESSED_COLUMN, output_attno := 1,
         compressed_scan_attno := 2, uni := .compressed none }] := by
    have h2 : initialize_column_state cfgCountFirstW =
        .ok [{ type := COUNT_COLUMN, output_attno := DECOMPRESS_CHUNK_COUNT_ID,
               compressed_scan_attno := 1, uni := .compressed none },
             { type := COMPRESSED_COLUMN, output_attno := 1,
               compressed_scan_attno := 2, uni := .compressed none }] := by decide
    rw [h2] at hcols
    exact (Except.ok.injEq _ _).mp hcols.symm
  subst this
  simp [initialize_batch, initialize_batch_column, csBatch, compressed_getattr,
    DatumGetInt32, iterator_init, cfgCountFirstW]

/-- One decode step of the canonical batch while rows and values remain:
the counter decrements, the head value is stored, the tuple is emitted. -/
theorem csBatch_decode_step (cnt : Int) (v : Int × Bool)
    (rest : List (Int × Bool)) (buf : Tuple) (sne : Bool) (hc : 0 < cnt) :
    decompress_next_tuple_from_batch (fun _ => none) (csBatch cnt (v :: rest) buf sne) =
      .ok (csBatch (cnt - 1) rest
        (buf.set 0 (if v.2 then none else some v.1)) true) := by
  have hnle : ¬ cnt ≤ 0 := not_le.mpr hc
  cases v with
  | mk x b =>
    simp [decompress_next_tuple_from_batch, csBatch, decompress_next_column,
      hnle, exceptBindOk]

/-- One decode step of the canonical batch when the iterator is exhausted
although the counter is still positive: tolerated batch end, no error. -/
theorem csBatch_decode_iter_done (cnt : Int) (buf : Tuple) (sne : Bool)
    (hc : 0 < cnt) :
    decompress_next_tuple_from_batch (fun _ => none) (csBatch cnt [] buf sne) =
      .ok (csBatch (cnt - 1) [] buf false) := by
  have hnle : ¬ cnt ≤ 0 := not_le.mpr hc
  simp [decompress_next_tuple_from_batch, csBatch, decompress_next_column,
    hnle, exceptBindOk]

/-- One decode step of the canonical batch when the counter has reached
zero but the iterator still yields a value: the fatal out-of-sync error. -/
theorem csBatch_decode_out_of_sync (cnt : Int) (v : Int × Bool)
    (rest : List (Int × Bool)) (buf : Tuple) (sne : Bool) (hc : cnt ≤ 0) :
    decompress_next_tuple_from_batch (fun _ => none) (csBatch cnt (v :: rest) buf sne) =
      .error "compressed column out of sync with batch counter" := by
  cases v with
  | mk x b =>
    simp [decompress_next_tuple_from_batch, csBatch, decompress_next_column,
      hc, exceptBindOk, exceptBindErr]

/-- Running the canonical batch for exactly its `n` counted rows while the
iterator holds more than `n` values: every one of the `n` decodes emits a
tuple, leaving counter 0 and the surplus values unconsumed. -/
theorem csBatch_run_n (n : Nat) : ∀ (vals : List (Int × Bool)) (buf : Tuple)
    (sne : Bool), n < vals.length →
    ∃ ts buf2 sne2, decode_batch_n (fun _ => none) n (csBatch n vals buf sne) =
      .ok (ts, csBatch 0 (vals.drop n) buf2 sne2) ∧ ts.length = n := by
  induction n with
  | zero =>
    intro vals buf sne _
    exact ⟨[], buf, sne, rfl, rfl⟩
  | succ m ih =>
    intro vals buf sne hlen
    cases vals with
    | nil => simp at hlen
    | cons v rest =>
      have hrest : m < rest.length := Nat.lt_of_succ_lt_succ (by simpa using hlen)
      obtain ⟨ts, buf2, sne2, hrun, hts⟩ :=
        ih rest (buf.set 0 (if v.2 then none else some v.1)) true hrest
      have hstep := csBatch_decode_step ((m : Int) + 1) v rest buf sne (by positivity)
      have hc1 : ((m : Int) + 1 - 1) = (m : Int) := by ring
      rw [hc1] at hstep
      refine ⟨(buf.set 0 (if v.2 then none else some v.1)) :: ts, buf2, sne2, ?_, by simp [hts]⟩
      rw [decode_batch_n]
      have hc2 : ((m + 1 : Nat) : Int) = (m : Int) + 1 := by push_cast; ring
      rw [hc2, hstep, exceptDotBindOk]
      rw [show (csBatch (m : Int) rest
        (buf.set 0 (if v.2 then none else some v.1)) true).output_slot =
        some (buf.set 0 (if v.2 then none else some v.1)) from rfl]
      dsimp only
      rw [hrun, exceptDotBindOk]
      rfl

/-- Running the canonical batch when the iterator holds fewer values than
the counter: all values are emitted and the following decode reports batch
end (tolerated, no error). -/
theorem csBatch_run_short (vals : List (Int × Bool)) : ∀ (cnt : Int)
    (buf : Tuple) (sne : Bool), (vals.length : Int) < cnt →
    ∃ ts buf2, decode_batch_n (fun _ => none) (vals.length + 1)
        (csBatch cnt vals buf sne) =
      .ok (ts, csBatch (cnt - vals.length - 1) [] buf2 false) ∧
      ts.length = vals.length := by
  induction vals with
  | nil =>
    intro cnt buf sne h
    have hpos : 0 < cnt := by simpa using h
    refine ⟨[], buf, ?_, rfl⟩
    rw [List.length_nil, decode_batch_n,
      csBatch_decode_iter_done cnt buf sne hpos, exceptDotBindOk]
    rw [show (csBatch (cnt - 1) [] buf false).output_slot = none from rfl]
    dsimp only
    norm_num
  | cons v rest ih =>
    intro cnt buf sne h
    have hpos : 0 < cnt := by
      rw [List.length_cons] at h
      push_cast at h
      omega
    have hstep := csBatch_decode_step cnt v rest buf sne hpos
    obtain ⟨ts, buf2, hrun, hts⟩ :=
      ih (cnt - 1) (buf.set 0 (if v.2 then none else some v.1)) true
        (by rw [List.length_cons] at h; push_cast at h ⊢; omega)
    refine ⟨(buf.set 0 (if v.2 then none else some v.1)) :: ts, buf2, ?_,
      by simp [hts]⟩
    rw [List.length_cons, decode_batch_n, hstep, exceptDotBindOk]
    rw [show (csBatch (cnt - 1) rest
      (buf.set 0 (if v.2 then none else some v.1)) true).output_slot =
      some (buf.set 0 (if v.2 then none else some v.1)) from rfl]
    dsimp only
    rw [hrun, exceptDotBindOk]
    have harith : cnt - 1 - (rest.length : Int) - 1 =
        cnt - ((rest.length + 1 : Nat) : Int) - 1 := by push_cast; ring
    rw [harith]

/-- C3: for the canonical count-first batch layout (count column ahead of
the compressed data column, the order the decode loop's out-of-sync check
presumes per the source comment), a batch initialized from a compressed row
with `count = n` whose stream holds more than `n` encoded values emits
exactly `n` rows and then raises the fatal
"compressed column out of sync with batch counter" error, never emitting
the `(n+1)`-th value; conversely, a stream exhausted before the counter
reaches zero ends the batch without error. -/
theorem C3_rowcount_enforcement (n : Nat) (vals : List (Int × Bool))
    (buf : Tuple) (cols : List DecompressChunkColumnState)
    (hcols : initialize_column_state cfgCountFirstW = .ok cols) :
    (n < vals.length →
      ∃ ts bs2, decode_batch_n (fun _ => none) n
          (initialize_batch cfgCountFirstW
            { tts_values := buf, slot_nonempty := false, segment_slot := none,
              columns := cols, counter := 0 }
            [some (.scalar n), some (.blob vals)]) = .ok (ts, bs2) ∧
        ts.length = n ∧
        decompress_next_tuple_from_batch (fun _ => none) bs2 =
          .error "compressed column out of sync with batch counter") ∧
    (vals.length < n →
      ∃ ts bs2, decode_batch_n (fun _ => none) (vals.length + 1)
          (initialize_batch cfgCountFirstW
            { tts_values := buf, slot_nonempty := false, segment_slot := none,
              columns := cols, counter := 0 }
            [some (.scalar n), some (.blob vals)]) = .ok (ts, bs2) ∧
        ts.length = vals.length ∧ bs2.output_slot = none) := by
  rw [initialize_batch_csBatch n vals buf false cols hcols]
  constructor
  · intro hlen
    obtain ⟨ts, buf2, sne2, hrun, hts⟩ := csBatch_run_n n vals buf false hlen
    have hne : vals.drop n ≠ [] := by
      intro hd
      have := List.length_drop n vals
      rw [hd] at this
      simp at this
      omega
    obtain ⟨w, ws, hws⟩ := List.exists_cons_of_ne_nil hne
    refine ⟨ts, _, hrun, hts, ?_⟩
    rw [hws]
    exact csBatch_decode_out_of_sync 0 w ws buf2 sne2 (le_refl 0)
  · intro hlen
    obtain ⟨ts, buf2, hrun, hts⟩ :=
      csBatch_run_short vals n buf false (by exact_mod_cast hlen)
    exact ⟨ts, _, hrun, hts, rfl⟩

/-- Witness for `C3_rowcount_enforcement`: count 3 against four encoded
values errs after three rows; count 5 against three encoded values ends
cleanly after three rows. -/
theorem C3_rowcount_enforcement_witness :
    (∃ ts bs2, decode_batch_n (fun _ => none) 3
        (initialize_batch cfgCountFirstW
          { tts_values := [none], slot_nonempty := false, segment_slot := none,
            columns := [{ type := COUNT_COLUMN,
                          output_attno := DECOMPRESS_CHUNK_COUNT_ID,
                          compressed_scan_attno := 1, uni := .compressed none },
                        { type := COMPRESSED_COLUMN, output_attno := 1,
                          compressed_scan_attno := 2, uni := .compressed none }],
            counter := 0 }
          [some (.scalar 3),
           some (.blob [(1, false), (2, false), (3, false), (4, false)])]) =
        .ok (ts, bs2) ∧ ts.length = 3 ∧
      decompress_next_tuple_from_batch (fun _ => none) bs2 =
        .error "compressed column out of sync with batch counter") ∧
    (∃ ts bs2, decode_batch_n (fun _ => none) 4
        (initialize_batch cfgCountFirstW
          { tts_values := [none], slot_nonempty := false, segment_slot := none,
            columns := [{ type := COUNT_COLUMN,
                          output_attno := DECOMPRESS_CHUNK_COUNT_ID,
                          compressed_scan_attno := 1, uni := .compressed none },
                        { type := COMPRESSED_COLUMN, output_attno := 1,
                          compressed_scan_attno := 2, uni := .compressed none }],
            counter := 0 }
          [some (.scalar 5),
           some (.blob [(1, false), (2, false), (3, false)])]) =
        .ok (ts, bs2) ∧ ts.length = 3 ∧ bs2.output_slot = none) := by
  constructor
  · exact (C3_rowcount_enforcement 3 [(1, false), (2, false), (3, false), (4, false)]
      [none] _ (by decide)).1 (by norm_num)
  · exact (C3_rowcount_enforcement 5 [(1, false), (2, false), (3, false)]
      [none] _ (by decide)).2 (by norm_num)

/-- A non-merge configuration whose first batch decodes to nothing
(`count = 0`, empty stream) and whose second batch holds one row. -/
def cfgSkipW : ChunkConfig :=
  { decompression_map := [1, -9],
    hypertable_compression_info := fun _ => false,
    reverse := false, segment_merge_append := false, sortkeys := [],
    natts := 1, missingattr := fun _ => none,
    child_tuples :=
      [[some (.blob []), some (.scalar 0)],
       [some (.blob [(5, false)]), some (.scalar 1)]] }

/-- C10: in non-merge mode a batch that yields no tuple never terminates
the output stream.  First conjunct: whenever
`decompress_chunk_create_tuple` completes with a NULL tuple, the child
scan has been fully consumed — NULL is returned only at child-scan end,
so an exhausted batch alone cannot end the stream.  Second conjunct: a
single `next()` call over a child whose first batch is empty skips that
batch within the call and returns the next batch's row. -/
theorem C10_null_only_at_child_end (cfg : ChunkConfig) :
    (∀ fuel rs rs2, rs.child_pos ≤ cfg.child_tuples.length →
      decompress_chunk_create_tuple cfg fuel rs = .ok (none, rs2) →
      rs2.child_pos = cfg.child_tuples.length) ∧
    (decompress_chunk_exec cfgSkipW psNoneW false 5 rsFreshW).toOption.map
      (fun p => p.1) = some (some [some 5]) := by
  constructor
  · intro fuel
    induction fuel with
    | zero =>
      intro rs rs2 _ h
      exact absurd h (by simp [decompress_chunk_create_tuple])
    | succ m ih =>
      intro rs rs2 hle h
      rw [decompress_chunk_create_tuple] at h
      by_cases hinit : rs.initialized
      · rw [if_pos hinit] at h
        dsimp only at h
        cases hdec : decompress_next_tuple_from_batch cfg.missingattr
            (rs.batch_states.getD 0 dummy_batch) with
        | error msg =>
          rw [hdec] at h
          exact absurd h (by simp [Except.bind])
        | ok batch =>
          rw [hdec, exceptDotBindOk] at h
          cases hslot : batch.output_slot with
          | some t =>
            rw [hslot] at h
            exact absurd h (by simp)
          | none =>
            rw [hslot] at h
            dsimp only at h
            refine ih _ rs2 ?_ h
            exact hle
      · rw [if_neg hinit] at h
        cases hchild : cfg.child_tuples[rs.child_pos]? with
        | none =>
          rw [hchild] at h
          dsimp only at h
          simp only [Except.ok.injEq, Prod.mk.injEq, true_and] at h
          have hlen := List.getElem?_eq_none_iff.mp hchild
          subst h
          omega
        | some subslot =>
          rw [hchild] at h
          dsimp only at h
          have hlt : rs.child_pos < cfg.child_tuples.length :=
            (List.getElem?_eq_some.mp hchild).1
          cases hdec : decompress_next_tuple_from_batch cfg.missingattr
              ((rs.batch_states.set 0 (initialize_batch cfg
                (rs.batch_states.getD 0 dummy_batch) subslot)).getD 0
                dummy_batch) with
          | error msg =>
            rw [hdec] at h
            exact absurd h (by simp [Except.bind])
          | ok batch =>
            rw [hdec, exceptDotBindOk] at h
            cases hslot : batch.output_slot with
            | some t =>
              rw [hslot] at h
              exact absurd h (by simp)
            | none =>
              rw [hslot] at h
              dsimp only at h
              refine ih _ rs2 ?_ h
              simpa using hlt
  · decide

/-- The single-batch-state run state of non-merge mode over `cfgSkipW`
(as `batch_states_create cfgSkipW _ 1` produces it). -/
def rsNMW : RunState :=
  { custom_ps := true, child_pos := 0, initialized := false,
    batch_states :=
      [{ tts_values := [none], slot_nonempty := false, segment_slot := none,
         columns := [{ type := COMPRESSED_COLUMN, output_attno := 1,
                       compressed_scan_attno := 1, uni := .compressed none },
                     { type := COUNT_COLUMN,
                       output_attno := DECOMPRESS_CHUNK_COUNT_ID,
                       compressed_scan_attno := 2, uni := .compressed none }],
         counter := 0 }],
    unused_batch_states := ∅, merge_heap := none, bh_space := 0, filtered := 0 }

/-- The child stream consisting of a single empty batch. -/
def cfgSkipEmptyW : ChunkConfig :=
  { cfgSkipW with
      child_tuples := [[some (.blob []), some (.scalar 0)]] }

/-- Witness for `C10_null_only_at_child_end`: a stream holding only an
empty batch produces NULL with the child position at the end of the
stream (the empty batch was skipped, the stream ended because the child
was exhausted). -/
theorem C10_null_only_at_child_end_witness :
    ((decompress_chunk_create_tuple cfgSkipEmptyW 5 rsNMW).toOption.map
      fun p => p.2.child_pos) = some cfgSkipEmptyW.child_tuples.length := by
  cases hres : decompress_chunk_create_tuple cfgSkipEmptyW 5 rsNMW with
  | error msg =>
    have hok : exceptOk (decompress_chunk_create_tuple cfgSkipEmptyW 5 rsNMW) = true := by
      decide
    rw [hres] at hok
    simp [exceptOk] at hok
  | ok p =>
    obtain ⟨o, rs2⟩ := p
    have ho : o = none := by
      have h1 : ((decompress_chunk_create_tuple cfgSkipEmptyW 5 rsNMW).toOption.map
          fun p => p.1) = some none := by decide
      rw [hres] at h1
      simpa [Except.toOption] using h1
    subst ho
    have h2 := (C10_null_only_at_child_end cfgSkipEmptyW).1 5 rsNMW rs2 (by decide) hres
    simp [Except.toOption, h2]

/-- The final bind of the merge branch forces the returned tuple to be
`merge_heap_emit` of the returned state. -/
theorem emit_bind_inv (cfg : ChunkConfig) (e : Except String RunState)
    (out : Option Tuple) (rs2 : RunState)
    (h : e.bind (fun r => .ok (merge_heap_emit cfg r, r)) = .ok (out, rs2)) :
    out = merge_heap_emit cfg rs2 := by
  cases e with
  | error msg =>
    rw [exceptDotBindErr] at h
    exact absurd h (by simp)
  | ok r =>
    rw [exceptDotBindOk] at h
    cases h
    rfl

/-- Every tuple the non-merge loop returns has passed the qualifier (when
one is installed) and is the projection of the decoded tuple (when a
projection is installed). -/
theorem exec_row_qual_projection (cfg : ChunkConfig) (ps : PlanQual) :
    ∀ fuel rs t rs2,
      decompress_chunk_exec_row cfg ps fuel rs = .ok (some t, rs2) →
      ∃ u, (∀ q, ps.qual = some q → q u = true) ∧
        t = (match ps.ps_ProjInfo with | some proj => proj u | none => u) := by
  intro fuel
  induction fuel with
  | zero =>
    intro rs t rs2 h
    exact absurd h (by simp [decompress_chunk_exec_row])
  | succ m ih =>
    intro rs t rs2 h
    rw [decompress_chunk_exec_row] at h
    cases hct : decompress_chunk_create_tuple cfg (m + 1) rs with
    | error msg =>
      rw [hct, exceptBindErr] at h
      exact absurd h (by simp)
    | ok p =>
      obtain ⟨slot, rs1⟩ := p
      rw [hct, exceptBindOk] at h
      dsimp only at h
      cases slot with
      | none => simp at h
      | some u =>
        dsimp only at h
        by_cases hq : (match ps.qual with | some q => !q u | none => false) = true
        · rw [if_pos hq] at h
          exact ih _ t rs2 h
        · rw [if_neg hq] at h
          refine ⟨u, ?_, ?_⟩
          · intro q hqq
            rw [hqq] at hq
            simpa using hq
          · cases hproj : ps.ps_ProjInfo with
            | none =>
              rw [hproj] at h
              cases h
              rfl
            | some proj =>
              rw [hproj] at h
              cases h
              rfl

/-- C8: in merge mode the operator returns the root batch's decompressed
tuple slot directly — the result is independent of the node's qualifier
and projection, and the returned tuple is exactly `merge_heap_emit` of
the post-call state; in non-merge mode every returned tuple has passed
the qualifier and is projected when a projection is present. -/
theorem C8_merge_bypasses_qual_projection (cfg : ChunkConfig) (intr : Bool)
    (fuel : Nat) :
    (∀ ps1 ps2 rs, cfg.segment_merge_append = true →
      decompress_chunk_exec cfg ps1 intr fuel rs =
        decompress_chunk_exec cfg ps2 intr fuel rs) ∧
    (∀ ps rs out rs2, cfg.segment_merge_append = true → rs.custom_ps = true →
      decompress_chunk_exec cfg ps intr fuel rs = .ok (out, rs2) →
      out = merge_heap_emit cfg rs2) ∧
    (∀ ps rs t rs2, cfg.segment_merge_append = false →
      decompress_chunk_exec cfg ps intr fuel rs = .ok (some t, rs2) →
      ∃ u, (∀ q, ps.qual = some q → q u = true) ∧
        t = (match ps.ps_ProjInfo with | some proj => proj u | none => u)) := by
  refine ⟨?_, ?_, ?_⟩
  · intro ps1 ps2 rs hm
    cases hps : rs.custom_ps
    · simp [decompress_chunk_exec, hps]
    · simp [decompress_chunk_exec, hps, hm]
  · intro ps rs out rs2 hm hps hexec
    simp only [decompress_chunk_exec, hps, hm, Bool.not_true, Bool.false_eq_true,
      if_false, if_true] at hexec
    rw [decompress_chunk_exec_merge] at hexec
    exact emit_bind_inv cfg _ out rs2 hexec
  · intro ps rs t rs2 hm hexec
    cases hps : rs.custom_ps
    · rw [decompress_chunk_exec] at hexec
      rw [hps] at hexec
      exact absurd hexec (by simp)
    · simp only [decompress_chunk_exec, hps, hm, Bool.not_true, Bool.false_eq_true,
        if_false, if_true] at hexec
      by_cases hbs : rs.batch_states.isEmpty
      · rw [if_pos hbs] at hexec
        cases hcr : batch_states_create cfg rs 1 with
        | error msg =>
          rw [hcr, exceptBindErr] at hexec
          exact absurd hexec (by simp)
        | ok rs1 =>
          rw [hcr, exceptBindOk] at hexec
          exact exec_row_qual_projection cfg ps fuel rs1 t rs2 hexec
      · rw [if_neg hbs, exceptBindOk] at hexec
        exact exec_row_qual_projection cfg ps fuel rs t rs2 hexec

/-- A `PlanQual` with a rejecting qualifier and a constant projection, to
exhibit their irrelevance in merge mode. -/
def psProjW : PlanQual :=
  { qual := some (fun _ => false), ps_ProjInfo := some (fun _ => [some 999]) }

/-- A qualifier keeping even values and a projection adding 100. -/
def psQualW : PlanQual :=
  { qual := some (fun t => match tuple_getattr t 1 with
      | some v => decide (v % 2 = 0)
      | none => false),
    ps_ProjInfo := some (fun t => [(tuple_getattr t 1).map (fun v => v + 100)]) }

/-- The non-merge counterpart configuration: one batch with rows 1..4. -/
def cfgQualW : ChunkConfig :=
  { decompression_map := [1, -9],
    hypertable_compression_info := fun _ => false,
    reverse := false, segment_merge_append := false, sortkeys := [],
    natts := 1, missingattr := fun _ => none,
    child_tuples :=
      [[some (.blob [(1, false), (2, false), (3, false), (4, false)]),
        some (.scalar 4)]] }

/-- Witness for `C8_merge_bypasses_qual_projection`: the merge-mode scan is
unaffected by a rejecting qualifier and mangling projection, and the first
non-merge tuple under `psQualW` is the projection (+100) of the first
qualifier-passing row (2). -/
theorem C8_merge_bypasses_qual_projection_witness :
    (decompress_chunk_exec cfgMergeW psProjW false 9 rsFreshW =
      decompress_chunk_exec cfgMergeW psNoneW false 9 rsFreshW) ∧
    (∃ u, (∀ q, psQualW.qual = some q → q u = true) ∧
      [some 102] =
        (match psQualW.ps_ProjInfo with | some proj => proj u | none => u)) := by
  constructor
  · exact (C8_merge_bypasses_qual_projection cfgMergeW false 9).1 psProjW psNoneW
      rsFreshW rfl
  · cases hres : decompress_chunk_exec cfgQualW psQualW false 9 rsFreshW with
    | error msg =>
      have hok : exceptOk (decompress_chunk_exec cfgQualW psQualW false 9 rsFreshW)
          = true := by decide
      rw [hres] at hok
      simp [exceptOk] at hok
    | ok p =>
      obtain ⟨o, rs2⟩ := p
      have ho : o = some [some 102] := by
        have h1 : ((decompress_chunk_exec cfgQualW psQualW false 9
            rsFreshW).toOption.map fun p => p.1) = some (some [some 102]) := by
          decide
        rw [hres] at h1
        simpa [Except.toOption] using h1
      subst ho
      exact ((C8_merge_bypasses_qual_projection cfgQualW false 9).2.2) psQualW
        rsFreshW [some 102] rs2 rfl hres

/-- `MAX_BUFFERED_TUPLES` from `copy.c`. -/
def MAX_BUFFERED_TUPLES : Nat := 1000

/-- `MAX_BUFFERED_BYTES` from `copy.c`. -/
def MAX_BUFFERED_BYTES : Nat := 65535

/-- `MAX_PARTITION_BUFFERS` from `copy.c`. -/
def MAX_PARTITION_BUFFERS : Nat := 32

/-- `CopyMultiInsertBuffer`: the per-chunk buffer of the COPY path; `cis`
identifies the `ChunkInsertState` / result relation the buffer belongs to
(the `cis` back-link of the C structure), `nused` the number of filled tuple
slots.  The tuple slots themselves are table writes outside this model. -/
structure CopyMultiInsertBuffer where
  cis : Nat
  nused : Nat
  deriving DecidableEq, Repr

/-- `CopyMultiInsertInfo`: the tracked buffers with the totals over all of
them. -/
structure CopyMultiInsertInfo where
  multiInsertBuffers : List CopyMultiInsertBuffer
  bufferedTuples : Nat
  bufferedBytes : Nat
  deriving DecidableEq, Repr

/-- `CopyMultiInsertInfoIsFull`. -/
def CopyMultiInsertInfoIsFull (miinfo : CopyMultiInsertInfo) : Bool :=
  if miinfo.bufferedTuples ≥ MAX_BUFFERED_TUPLES ∨
      miinfo.bufferedBytes ≥ MAX_BUFFERED_BYTES then true
  else false

/-- `CopyMultiInsertBufferFlush`: write the buffered tuples out (outside
the model) and mark all slots free. -/
def CopyMultiInsertBufferFlush (buffer : CopyMultiInsertBuffer) :
    CopyMultiInsertBuffer :=
  { buffer with nused := 0 }

/-- The trim loop of `CopyMultiInsertInfoFlush`: while more than
`MAX_PARTITION_BUFFERS` buffers are tracked, clean up the first (oldest)
buffer; when the first buffer belongs to the relation currently being
inserted into, move it to the end of the list and clean up the new first
buffer instead. -/
def trimMultiInsertBuffers (curr : Option Nat) (bufs : List CopyMultiInsertBuffer) :
    List CopyMultiInsertBuffer :=
  if bufs.length > MAX_PARTITION_BUFFERS then
    match bufs with
    | [] => []
    | b :: rest =>
      if some b.cis = curr then
        trimMultiInsertBuffers curr ((rest ++ [b]).tail)
      else
        trimMultiInsertBuffers curr rest
  else
    bufs
termination_by bufs.length
decreasing_by
  all_goals simp
  all_goals omega

/-- `CopyMultiInsertInfoFlush`: flush every tracked buffer, reset the
totals, then trim the buffer list; `curr` is the result relation currently
being inserted into (`NULL` at the final flush). -/
def CopyMultiInsertInfoFlush (curr : Option Nat) (miinfo : CopyMultiInsertInfo) :
    CopyMultiInsertInfo :=
  { multiInsertBuffers :=
      trimMultiInsertBuffers curr
        (miinfo.multiInsertBuffers.map CopyMultiInsertBufferFlush),
    bufferedTuples := 0, bufferedBytes := 0 }

/-- `CopyMultiInsertInfoStore`: consume one slot of the current relation's
buffer and account the tuple and its line-buffer length `tuplen`.  The C
code reaches the buffer through the relation's back-link; with one buffer
per relation this is the update below. -/
def CopyMultiInsertInfoStore (curr : Nat) (tuplen : Nat)
    (miinfo : CopyMultiInsertInfo) : CopyMultiInsertInfo :=
  { multiInsertBuffers := miinfo.multiInsertBuffers.map
      (fun b => if b.cis = curr then { b with nused := b.nused + 1 } else b),
    bufferedTuples := miinfo.bufferedTuples + 1,
    bufferedBytes := miinfo.bufferedBytes + tuplen }

/-- The multi-insert arm of the `copyfrom` loop (lines 925-939): store the
tuple for the current chunk, then flush all buffers as soon as the totals
are full. -/
def copyMultiInsertStep (curr : Nat) (tuplen : Nat)
    (miinfo : CopyMultiInsertInfo) : CopyMultiInsertInfo :=
  let m1 := CopyMultiInsertInfoStore curr tuplen miinfo
  if CopyMultiInsertInfoIsFull m1 then CopyMultiInsertInfoFlush (some curr) m1
  else m1

/-- The trim loop leaves `min length MAX_PARTITION_BUFFERS` buffers. -/
theorem trimMultiInsertBuffers_length (curr : Option Nat) :
    ∀ n (bufs : List CopyMultiInsertBuffer), bufs.length ≤ n →
    (trimMultiInsertBuffers curr bufs).length =
      min bufs.length MAX_PARTITION_BUFFERS := by
  intro n
  induction n with
  | zero =>
    intro bufs h
    rw [trimMultiInsertBuffers.eq_def]
    rw [if_neg (by omega)]
    omega
  | succ k ih =>
    intro bufs h
    rw [trimMultiInsertBuffers.eq_def]
    by_cases hlen : bufs.length > MAX_PARTITION_BUFFERS
    · rw [if_pos hlen]
      cases bufs with
      | nil => simp at hlen
      | cons b rest =>
        dsimp only
        by_cases hc : some b.cis = curr
        · rw [if_pos hc]
          have h2 : ((rest ++ [b]).tail).length = rest.length := by simp
          rw [ih _ (by simp at h ⊢; omega), h2]
          simp at hlen ⊢
          omega
        · rw [if_neg hc]
          rw [ih _ (by simp at h ⊢; omega)]
          simp at hlen ⊢
          omega
    · rw [if_neg hlen]
      omega

/-- Every buffer surviving the trim loop was among the tracked buffers. -/
theorem trimMultiInsertBuffers_subset (curr : Option Nat) :
    ∀ n (bufs : List CopyMultiInsertBuffer), bufs.length ≤ n →
    ∀ b ∈ trimMultiInsertBuffers curr bufs, b ∈ bufs := by
  intro n
  induction n with
  | zero =>
    intro bufs h b hb
    rw [trimMultiInsertBuffers.eq_def, if_neg (by omega)] at hb
    exact hb
  | succ k ih =>
    intro bufs h b hb
    rw [trimMultiInsertBuffers.eq_def] at hb
    by_cases hlen : bufs.length > MAX_PARTITION_BUFFERS
    · rw [if_pos hlen] at hb
      cases bufs with
      | nil => simp at hlen
      | cons hd rest =>
        dsimp only at hb
        by_cases hc : some hd.cis = curr
        · rw [if_pos hc] at hb
          have hmem := ih _ (by simp at h ⊢; omega) b hb
          have : b ∈ rest ++ [hd] := List.mem_of_mem_tail hmem
          simp at this
          rcases this with h1 | h1
          · exact List.mem_cons_of_mem _ h1
          · rw [h1]; exact List.mem_cons_self _ _
        · rw [if_neg hc] at hb
          exact List.mem_cons_of_mem _ (ih _ (by simp at h ⊢; omega) b hb)
    · rw [if_neg hlen] at hb
      exact hb

/-- The trim loop never removes the current relation's buffer (given the
one-buffer-per-relation discipline of the back-links). -/
theorem trimMultiInsertBuffers_keeps_current (c : Nat) :
    ∀ n (bufs : List CopyMultiInsertBuffer), bufs.length ≤ n →
    bufs.countP (fun b => b.cis = c) ≤ 1 →
    (∃ b ∈ bufs, b.cis = c) →
    ∃ b ∈ trimMultiInsertBuffers (some c) bufs, b.cis = c := by
  intro n
  induction n with
  | zero =>
    intro bufs h hcount hex
    rw [trimMultiInsertBuffers.eq_def, if_neg (by omega)]
    exact hex
  | succ k ih =>
    intro bufs h hcount hex
    rw [trimMultiInsertBuffers.eq_def]
    by_cases hlen : bufs.length > MAX_PARTITION_BUFFERS
    · rw [if_pos hlen]
      cases bufs with
      | nil => simp at hlen
      | cons hd rest =>
        dsimp only
        by_cases hc : some hd.cis = some c
        · rw [if_pos hc]
          have hdc : hd.cis = c := by simpa using hc
          cases rest with
          | nil => simp [MAX_PARTITION_BUFFERS] at hlen
          | cons h2 rest2 =>
            have e3 : (hd :: h2 :: rest2).countP
                (fun b => decide (b.cis = c)) =
                (h2 :: rest2).countP (fun b => decide (b.cis = c)) + 1 := by
              rw [List.countP_cons]
              simp [hdc]
            have e4 : (h2 :: rest2).countP (fun b => decide (b.cis = c)) = 0 := by
              rw [e3] at hcount
              omega
            have e5 : rest2.countP (fun b => decide (b.cis = c)) = 0 := by
              rw [List.countP_cons] at e4
              exact (Nat.add_eq_zero.mp e4).1
            have hcount2 : ((h2 :: rest2) ++ [hd]).tail.countP
                (fun b => b.cis = c) ≤ 1 := by
              have e1 : ((h2 :: rest2) ++ [hd]).tail = rest2 ++ [hd] := by simp
              rw [e1, List.countP_append, e5]
              simp [hdc]
            refine ih _ (by simp at h ⊢; omega) hcount2 ?_
            refine ⟨hd, ?_, hdc⟩
            simp
        · rw [if_neg hc]
          have hdc : hd.cis ≠ c := fun he => hc (by rw [he])
          obtain ⟨b, hb, hbc⟩ := hex
          rcases List.mem_cons.mp hb with h1 | h1
          · rw [h1] at hbc; exact absurd hbc hdc
          · refine ih _ (by simp at h ⊢; omega) ?_ ⟨b, h1, hbc⟩
            exact le_trans ((List.sublist_cons_self hd rest).countP_le _) hcount
    · rw [if_neg hlen]
      exact hex

/-- When none of the oldest `length - MAX_PARTITION_BUFFERS` buffers is the
current relation's, the trim loop removes exactly that oldest run. -/
theorem trimMultiInsertBuffers_drops_oldest (curr : Option Nat) :
    ∀ n (bufs : List CopyMultiInsertBuffer), bufs.length ≤ n →
    (∀ b ∈ bufs.take (bufs.length - MAX_PARTITION_BUFFERS), some b.cis ≠ curr) →
    trimMultiInsertBuffers curr bufs =
      bufs.drop (bufs.length - MAX_PARTITION_BUFFERS) := by
  intro n
  induction n with
  | zero =>
    intro bufs h _
    rw [trimMultiInsertBuffers.eq_def, if_neg (by omega)]
    rw [show bufs.length - MAX_PARTITION_BUFFERS = 0 by omega]
    rfl
  | succ k ih =>
    intro bufs h hpre
    rw [trimMultiInsertBuffers.eq_def]
    by_cases hlen : bufs.length > MAX_PARTITION_BUFFERS
    · rw [if_pos hlen]
      cases bufs with
      | nil => simp at hlen
      | cons hd rest =>
        dsimp only
        have hk : (hd :: rest).length - MAX_PARTITION_BUFFERS =
            (rest.length - MAX_PARTITION_BUFFERS) + 1 := by
          simp at hlen ⊢
          omega
        have hhd : some hd.cis ≠ curr := by
          apply hpre
          rw [hk, List.take_succ_cons]
          exact List.mem_cons_self _ _
        rw [if_neg hhd]
        have hpre2 : ∀ b ∈ rest.take (rest.length - MAX_PARTITION_BUFFERS),
            some b.cis ≠ curr := by
          intro b hb
          apply hpre
          rw [hk, List.take_succ_cons]
          exact List.mem_cons_of_mem _ hb
        rw [ih _ (by simp at h ⊢; omega) hpre2, hk, List.drop_succ_cons]
    · rw [if_neg hlen]
      rw [show bufs.length - MAX_PARTITION_BUFFERS = 0 by omega]
      rfl

/-- C9: the buffered COPY path flushes as soon as the totals reach
`MAX_BUFFERED_TUPLES` (1000) tuples or `MAX_BUFFERED_BYTES` (65535) bytes;
each flush empties every buffer and resets the totals, and then trims the
tracked buffer list, oldest buffers first and never the current relation's
buffer, down to at most `MAX_PARTITION_BUFFERS` (32) buffers. -/
theorem C9_copy_buffer_policy (curr : Nat) (tuplen : Nat)
    (m : CopyMultiInsertInfo) :
    (CopyMultiInsertInfoIsFull m = true ↔
      MAX_BUFFERED_TUPLES ≤ m.bufferedTuples ∨
        MAX_BUFFERED_BYTES ≤ m.bufferedBytes) ∧
    (CopyMultiInsertInfoIsFull (CopyMultiInsertInfoStore curr tuplen m) = false →
      copyMultiInsertStep curr tuplen m = CopyMultiInsertInfoStore curr tuplen m) ∧
    (CopyMultiInsertInfoIsFull (CopyMultiInsertInfoStore curr tuplen m) = true →
      copyMultiInsertStep curr tuplen m =
        CopyMultiInsertInfoFlush (some curr) (CopyMultiInsertInfoStore curr tuplen m)) ∧
    ((CopyMultiInsertInfoFlush (some curr) m).bufferedTuples = 0 ∧
      (CopyMultiInsertInfoFlush (some curr) m).bufferedBytes = 0 ∧
      ∀ b ∈ (CopyMultiInsertInfoFlush (some curr) m).multiInsertBuffers,
        b.nused = 0) ∧
    ((CopyMultiInsertInfoFlush (some curr) m).multiInsertBuffers.length =
      min m.multiInsertBuffers.length MAX_PARTITION_BUFFERS) ∧
    (m.multiInsertBuffers.countP (fun b => b.cis = curr) ≤ 1 →
      (∃ b ∈ m.multiInsertBuffers, b.cis = curr) →
      ∃ b ∈ (CopyMultiInsertInfoFlush (some curr) m).multiInsertBuffers,
        b.cis = curr) ∧
    ((∀ b ∈ m.multiInsertBuffers.take
        (m.multiInsertBuffers.length - MAX_PARTITION_BUFFERS), b.cis ≠ curr) →
      (CopyMultiInsertInfoFlush (some curr) m).multiInsertBuffers =
        (m.multiInsertBuffers.map CopyMultiInsertBufferFlush).drop
          (m.multiInsertBuffers.length - MAX_PARTITION_BUFFERS)) := by
  refine ⟨?_, ?_, ?_, ⟨rfl, rfl, ?_⟩, ?_, ?_, ?_⟩
  · constructor
    · intro h
      by_contra hc
      push_neg at hc
      simp [CopyMultiInsertInfoIsFull, hc.1, hc.2] at h
      omega
    · intro h
      simp [CopyMultiInsertInfoIsFull]
      omega
  · intro h
    simp [copyMultiInsertStep, h]
  · intro h
    simp [copyMultiInsertStep, h]
  · intro b hb
    have hmem := trimMultiInsertBuffers_subset (some curr)
      (m.multiInsertBuffers.map CopyMultiInsertBufferFlush).length _ le_rfl b hb
    obtain ⟨b0, -, hb0⟩ := List.mem_map.mp hmem
    rw [← hb0]
    rfl
  · rw [CopyMultiInsertInfoFlush]
    rw [trimMultiInsertBuffers_length (some curr)
      (m.multiInsertBuffers.map CopyMultiInsertBufferFlush).length _ le_rfl]
    simp
  · intro hcount hex
    apply trimMultiInsertBuffers_keeps_current curr
      (m.multiInsertBuffers.map CopyMultiInsertBufferFlush).length _ le_rfl
    · rw [List.countP_map]
      simpa [Function.comp, CopyMultiInsertBufferFlush] using hcount
    · obtain ⟨b, hb, hbc⟩ := hex
      exact ⟨CopyMultiInsertBufferFlush b, List.mem_map_of_mem _ hb, hbc⟩
  · intro hpre
    have hyp2 : ∀ b ∈ (m.multiInsertBuffers.map CopyMultiInsertBufferFlush).take
        ((m.multiInsertBuffers.map CopyMultiInsertBufferFlush).length -
          MAX_PARTITION_BUFFERS), some b.cis ≠ some curr := by
      intro b hb
      rw [List.length_map, ← List.map_take] at hb
      obtain ⟨b1, hb1mem, hb1⟩ := List.mem_map.mp hb
      have hcis : b1.cis = b.cis := by rw [← hb1]; rfl
      intro hc
      exact hpre b1 hb1mem (by rw [hcis]; simpa using hc)
    have hdrop := trimMultiInsertBuffers_drops_oldest (some curr)
      (m.multiInsertBuffers.map CopyMultiInsertBufferFlush).length _ le_rfl hyp2
    rw [CopyMultiInsertInfoFlush]
    dsimp only
    rw [hdrop, List.length_map]

/-- A 35-buffer state (chunk ids 0..34) with totals at the flush threshold. -/
def miW : CopyMultiInsertInfo :=
  { multiInsertBuffers := (List.range 35).map (fun i => { cis := i, nused := 3 }),
    bufferedTuples := 999, bufferedBytes := 0 }

/-- Witness for `C9_copy_buffer_policy`: storing the 1000th tuple for chunk
34 into `miW` flushes; the flush keeps 32 of 35 buffers, keeps chunk 34's
buffer, and drops the three oldest buffers. -/
theorem C9_copy_buffer_policy_witness :
    copyMultiInsertStep 34 0 miW =
      CopyMultiInsertInfoFlush (some 34) (CopyMultiInsertInfoStore 34 0 miW) ∧
    (CopyMultiInsertInfoFlush (some 34) miW).multiInsertBuffers.length = 32 ∧
    (∃ b ∈ (CopyMultiInsertInfoFlush (some 34) miW).multiInsertBuffers,
      b.cis = 34) ∧
    (CopyMultiInsertInfoFlush (some 34) miW).multiInsertBuffers =
      (miW.multiInsertBuffers.map CopyMultiInsertBufferFlush).drop 3 := by
  obtain ⟨-, -, h3, -, h5, h6, h7⟩ := C9_copy_buffer_policy 34 0 miW
  refine ⟨h3 (by decide), ?_, ?_, ?_⟩
  · rw [h5]
    decide
  · exact h6 (by decide) ⟨{ cis := 34, nused := 3 }, by decide, rfl⟩
  · exact h7 (by decide)

/-- `cmpInt` is antisymmetric in sign. -/
theorem cmpInt_antisym (x y : Int) : cmpInt x y = - cmpInt y x := by
  unfold cmpInt
  split_ifs <;> omega

/-- `cmpInt` vanishes only on equal values. -/
theorem cmpInt_eq_zero (x y : Int) (h : cmpInt x y = 0) : x = y := by
  unfold cmpInt at h
  split_ifs at h <;> omega

/-- `cmpInt` is transitive in the strict negative sign. -/
theorem cmpInt_neg_trans (x y z : Int) (h1 : cmpInt x y < 0)
    (h2 : cmpInt y z < 0) : cmpInt x z < 0 := by
  unfold cmpInt at *
  split_ifs at * <;> omega

/-- One sort key compares antisymmetrically. -/
theorem applySortComparator_antisym (a b : Value) (k : SortSupportData) :
    applySortComparator a b k = - applySortComparator b a k := by
  cases a <;> cases b <;>
    cases hnf : k.ssup_nulls_first <;> cases hr : k.ssup_reverse <;>
    simp [applySortComparator, hnf, hr] <;>
    rw [cmpInt_antisym] <;> ring

/-- A zero key comparison identifies the attribute values. -/
theorem applySortComparator_eq_zero (a b : Value) (k : SortSupportData)
    (h : applySortComparator a b k = 0) : a = b := by
  cases a <;> cases b <;>
    cases hnf : k.ssup_nulls_first <;> cases hr : k.ssup_reverse <;>
    simp [applySortComparator, hnf, hr] at h ⊢ <;>
  · first
    | exact cmpInt_eq_zero _ _ h
    | exact cmpInt_eq_zero _ _ (by omega)

/-- `cmpInt` is transitive in the strict positive sign. -/
theorem cmpInt_pos_trans (x y z : Int) (h1 : 0 < cmpInt x y)
    (h2 : 0 < cmpInt y z) : 0 < cmpInt x z := by
  unfold cmpInt at *
  split_ifs at * <;> omega

/-- Strict negative transitivity of one sort key. -/
theorem applySortComparator_neg_trans (a b c : Value) (k : SortSupportData)
    (h1 : applySortComparator a b k < 0) (h2 : applySortComparator b c k < 0) :
    applySortComparator a c k < 0 := by
  cases a <;> cases b <;> cases c <;>
    cases hnf : k.ssup_nulls_first <;> cases hr : k.ssup_reverse <;>
    simp [applySortComparator, hnf, hr] at h1 h2 ⊢ <;>
    first
      | omega
      | exact cmpInt_neg_trans _ _ _ h1 h2
      | exact cmpInt_pos_trans _ _ _ h1 h2

/-- The sort-key loop compares antisymmetrically. -/
theorem lexCompare_antisym (keys : List SortSupportData) (a b : Tuple) :
    lexCompare keys a b = - lexCompare keys b a := by
  induction keys with
  | nil => rfl
  | cons k rest ih =>
    simp only [lexCompare]
    have ha := applySortComparator_antisym (tuple_getattr a k.ssup_attno)
      (tuple_getattr b k.ssup_attno) k
    by_cases h0 : applySortComparator (tuple_getattr a k.ssup_attno)
        (tuple_getattr b k.ssup_attno) k = 0
    · have h0b : applySortComparator (tuple_getattr b k.ssup_attno)
          (tuple_getattr a k.ssup_attno) k = 0 := by omega
      rw [if_pos h0, if_pos h0b]
      exact ih
    · have h0b : ¬ applySortComparator (tuple_getattr b k.ssup_attno)
          (tuple_getattr a k.ssup_attno) k = 0 := by omega
      rw [if_neg h0, if_neg h0b]
      exact ha

/-- The sort-key loop is transitive in the non-positive sign. -/
theorem lexCompare_le_trans (keys : List SortSupportData) (a b c : Tuple)
    (h1 : lexCompare keys a b ≤ 0) (h2 : lexCompare keys b c ≤ 0) :
    lexCompare keys a c ≤ 0 := by
  induction keys with
  | nil => simp [lexCompare]
  | cons k rest ih =>
    simp only [lexCompare] at h1 h2 ⊢
    set u := tuple_getattr a k.ssup_attno with hu
    set v := tuple_getattr b k.ssup_attno with hv
    set w := tuple_getattr c k.ssup_attno with hw
    by_cases e1 : applySortComparator u v k = 0
    · have huv : u = v := applySortComparator_eq_zero _ _ _ e1
      rw [if_pos e1] at h1
      rw [huv]
      by_cases e2 : applySortComparator v w k = 0
      · rw [if_pos e2] at h2
        rw [if_pos e2]
        exact ih h1 h2
      · rw [if_neg e2] at h2
        rw [if_neg e2]
        exact h2
    · rw [if_neg e1] at h1
      have e1h : applySortComparator u v k < 0 := lt_of_le_of_ne h1 e1
      by_cases e2 : applySortComparator v w k = 0
      · have hvw : v = w := applySortComparator_eq_zero _ _ _ e2
        rw [← hvw, if_neg e1]
        exact h1
      · rw [if_neg e2] at h2
        have e2h : applySortComparator v w k < 0 := lt_of_le_of_ne h2 e2
        have e3 := applySortComparator_neg_trans u v w k e1h e2h
        rw [if_neg (by omega)]
        exact le_of_lt e3

/-- The heap comparator is antisymmetric (non-empty slots compare through
`lexCompare`, all other combinations compare as 0). -/
theorem heap_compare_slots_antisym (cfg : ChunkConfig)
    (bss : List DecompressBatchState) (a b : Nat) :
    heap_compare_slots cfg bss a b = - heap_compare_slots cfg bss b a := by
  unfold heap_compare_slots
  cases (bss.getD a dummy_batch).output_slot <;>
    cases (bss.getD b dummy_batch).output_slot <;>
    simp
  rw [lexCompare_antisym]
  ring

/-- The heap comparator is transitive on ids whose slots are non-empty. -/
theorem heap_compare_slots_trans (cfg : ChunkConfig)
    (bss : List DecompressBatchState) (a b c : Nat)
    (hb : (bss.getD b dummy_batch).output_slot ≠ none)
    (h1 : heap_compare_slots cfg bss a b ≤ 0)
    (h2 : heap_compare_slots cfg bss b c ≤ 0) :
    heap_compare_slots cfg bss a c ≤ 0 := by
  unfold heap_compare_slots at *
  cases ha : (bss.getD a dummy_batch).output_slot with
  | none => simp [ha]
  | some ta =>
    cases hc : (bss.getD c dummy_batch).output_slot with
    | none => simp [ha, hc]
    | some tc =>
      cases hbv : (bss.getD b dummy_batch).output_slot with
      | none => exact absurd hbv hb
      | some tb =>
        rw [ha, hbv] at h1
        rw [hbv, hc] at h2
        dsimp only at h1 h2 ⊢
        have t1 : lexCompare cfg.sortkeys tb ta ≤ 0 := by
          rw [lexCompare_antisym]
          omega
        have t2 : lexCompare cfg.sortkeys tc tb ≤ 0 := by
          rw [lexCompare_antisym]
          omega
        have t3 := lexCompare_le_trans cfg.sortkeys tc tb ta t2 t1
        rw [lexCompare_antisym] at t3
        omega

/-- The running maximum of the `binaryheap_first` fold: the result is the
initial candidate or a list member, and it dominates both under the
comparator, provided the comparator is antisymmetric everywhere and
transitive on the candidates. -/
theorem binaryheap_first_from_max (f : Nat → Nat → Int)
    (hanti : ∀ x y, f x y = - f y x)
    (l0 : List Nat)
    (htrans : ∀ x ∈ l0, ∀ y ∈ l0, ∀ z ∈ l0, f x y ≤ 0 → f y z ≤ 0 → f x z ≤ 0) :
    ∀ (l : List Nat) (b : Nat), b ∈ l0 → (∀ x ∈ l, x ∈ l0) →
    (binaryheap_first_from f b l ∈ l0 ∧ f b (binaryheap_first_from f b l) ≤ 0 ∧
      (binaryheap_first_from f b l = b ∨ binaryheap_first_from f b l ∈ l) ∧
      ∀ x ∈ l, f x (binaryheap_first_from f b l) ≤ 0) := by
  intro l
  induction l with
  | nil =>
    intro b hb _
    refine ⟨hb, ?_, Or.inl rfl, by simp⟩
    have := hanti b b
    simp [binaryheap_first_from]
    omega
  | cons x rest ih =>
    intro b hb hsub
    have hx : x ∈ l0 := hsub x (List.mem_cons_self _ _)
    have hsub2 : ∀ y ∈ rest, y ∈ l0 := fun y hy => hsub y (List.mem_cons_of_mem _ hy)
    rw [binaryheap_first_from]
    by_cases hcmp : 0 < f x b
    · rw [if_pos hcmp]
      obtain ⟨hmem, hdom, hor, hall⟩ := ih x hx hsub2
      have hbx : f b x ≤ 0 := by
        have := hanti x b
        omega
      refine ⟨hmem, htrans b hb x hx _ hmem hbx hdom, ?_, ?_⟩
      · rcases hor with h | h
        · exact Or.inr (by rw [h]; exact List.mem_cons_self x rest)
        · exact Or.inr (List.mem_cons_of_mem _ h)
      · intro y hy
        rcases List.mem_cons.mp hy with h | h
        · rw [h]; exact hdom
        · exact hall y h
    · rw [if_neg hcmp]
      obtain ⟨hmem, hdom, hor, hall⟩ := ih b hb hsub2
      refine ⟨hmem, hdom, ?_, ?_⟩
      · rcases hor with h | h
        · exact Or.inl h
        · exact Or.inr (List.mem_cons_of_mem _ h)
      · intro y hy
        rcases List.mem_cons.mp hy with h | h
        · rw [h]
          have hxb : f x b ≤ 0 := by omega
          exact htrans x hx b hb _ hmem hxb hdom
        · exact hall y h

/-- `binaryheap_first` returns a member dominating every element of the
node array under the comparator. -/
theorem binaryheap_first_max (f : Nat → Nat → Int)
    (hanti : ∀ x y, f x y = - f y x)
    (l : List Nat)
    (htrans : ∀ x ∈ l, ∀ y ∈ l, ∀ z ∈ l, f x y ≤ 0 → f y z ≤ 0 → f x z ≤ 0)
    (m : Nat) (hm : binaryheap_first f l = some m) :
    m ∈ l ∧ ∀ x ∈ l, f x m ≤ 0 := by
  cases l with
  | nil => simp [binaryheap_first] at hm
  | cons x rest =>
    rw [binaryheap_first] at hm
    have hm2 : m = binaryheap_first_from f x rest := by
      have h2 := hm
      simp at h2
      exact h2.symm
    subst hm2
    obtain ⟨hmem, hdom, hor, hall⟩ := binaryheap_first_from_max f hanti (x :: rest)
      htrans rest x (List.mem_cons_self x rest)
      (fun y hy => List.mem_cons_of_mem x hy)
    refine ⟨hmem, ?_⟩
    intro y hy
    rcases List.mem_cons.mp hy with h | h
    · rw [h]; exact hdom
    · exact hall y h

/-- `getD` after `set` at the written index. -/
theorem getD_set_self {α : Type} (l : List α) (i : Nat) (b d : α)
    (h : i < l.length) : (l.set i b).getD i d = b := by
  simp [List.getD_eq_getElem?_getD, List.getElem?_set_self, h]

/-- `getD` after `set` at another index. -/
theorem getD_set_ne {α : Type} (l : List α) (i j : Nat) (b d : α)
    (h : i ≠ j) : (l.set i b).getD j d = l.getD j d := by
  simp [List.getD_eq_getElem?_getD, List.getElem?_set_ne, h]

/-- Fuel-indexed well-behavedness of one batch's decode stream: for `n`
further steps on a live batch, each decode succeeds and each newly decoded
tuple does not precede the tuple previously held in the output slot under
the sort keys.  (A batch whose slot is empty has left the heap and is never
decoded again.)  This captures, per batch, the premise of the merge: the
child delivers batches whose decoded rows arrive in query order. -/
def batchSortedNB (missing : Nat → Value) (keys : List SortSupportData) :
    Nat → DecompressBatchState → Bool
  | 0, _ => true
  | n + 1, bs =>
    if bs.output_slot = none then true
    else
      match decompress_next_tuple_from_batch missing bs with
      | .error _ => false
      | .ok bs2 =>
        (match bs.output_slot, bs2.output_slot with
         | some t, some u => decide (lexCompare keys t u ≤ 0)
         | _, _ => true) && batchSortedNB missing keys n bs2

/-- Larger fuel implies smaller fuel for `batchSortedNB`. -/
theorem batchSortedNB_mono (missing : Nat → Value) (keys : List SortSupportData) :
    ∀ n bs, batchSortedNB missing keys (n + 1) bs = true →
      batchSortedNB missing keys n bs = true := by
  intro n
  induction n with
  | zero => intro bs _; rfl
  | succ k ih =>
    intro bs h
    rw [batchSortedNB] at h ⊢
    by_cases hs : bs.output_slot = none
    · rw [if_pos hs]
    · rw [if_neg hs] at h ⊢
      cases hdec : decompress_next_tuple_from_batch missing bs with
      | error msg =>
        rw [hdec] at h
        dsimp only at h ⊢
        exact h
      | ok bs2 =>
        rw [hdec] at h
        dsimp only at h ⊢
        rw [Bool.and_eq_true] at h ⊢
        exact ⟨h.1, ih bs2 h.2⟩

/-- The streaming-merge invariant: the heap node array is duplicate free
and every id on it denotes an in-range batch whose output slot holds a
tuple and whose remaining decode stream is well behaved for `n` steps. -/
def MergeInv (cfg : ChunkConfig) (n : Nat) (rs : RunState) (h : List Nat) : Prop :=
  rs.merge_heap = some h ∧ h.Nodup ∧
  ∀ id ∈ h, id < rs.batch_states.length ∧
    (rs.batch_states.getD id dummy_batch).output_slot ≠ none ∧
    batchSortedNB cfg.missingattr cfg.sortkeys n
      (rs.batch_states.getD id dummy_batch) = true

/-- `merge_heap_emit` through a known heap and root. -/
theorem merge_heap_emit_eq (cfg : ChunkConfig) (rs : RunState) (h : List Nat)
    (hh : rs.merge_heap = some h) (hne : h ≠ []) (i0 : Nat)
    (hi0 : binaryheap_first (heap_compare_slots cfg rs.batch_states) h = some i0) :
    merge_heap_emit cfg rs = (rs.batch_states.getD i0 dummy_batch).output_slot := by
  unfold merge_heap_emit
  rw [hh]
  cases h with
  | nil => exact absurd rfl hne
  | cons x rest =>
    dsimp only
    rw [hi0]

/-- `merge_heap_emit` of an empty heap is NULL. -/
theorem merge_heap_emit_nil (cfg : ChunkConfig) (rs : RunState)
    (hh : rs.merge_heap = some []) : merge_heap_emit cfg rs = none := by
  unfold merge_heap_emit
  rw [hh]

/-- The steady-state merge branch through a known heap and root. -/
theorem exec_merge_advance_eq (cfg : ChunkConfig) (rs : RunState)
    (h : List Nat) (i0 : Nat) (hh : rs.merge_heap = some h) (hne : h ≠ [])
    (hi0 : binaryheap_first (heap_compare_slots cfg rs.batch_states) h = some i0) :
    decompress_chunk_exec_merge cfg rs =
      (merge_heap_advance cfg rs h i0).bind
        fun rs2 => .ok (merge_heap_emit cfg rs2, rs2) := by
  unfold decompress_chunk_exec_merge
  rw [hh]
  cases h with
  | nil => exact absurd rfl hne
  | cons x rest =>
    dsimp only
    rw [hi0]

/-- `decompress_chunk_exec` reduces to the merge branch. -/
theorem decompress_chunk_exec_merge_reduce (cfg : ChunkConfig) (ps : PlanQual)
    (intr : Bool) (fuel : Nat) (rs : RunState) (hps : rs.custom_ps = true)
    (hm : cfg.segment_merge_append = true) :
    decompress_chunk_exec cfg ps intr fuel rs =
      decompress_chunk_exec_merge cfg rs := by
  simp [decompress_chunk_exec, hps, hm]

/-- The fold of `binaryheap_first` returns its candidate or a member. -/
theorem binaryheap_first_from_mem (f : Nat → Nat → Int) :
    ∀ (l : List Nat) (b : Nat),
    binaryheap_first_from f b l = b ∨ binaryheap_first_from f b l ∈ l := by
  intro l
  induction l with
  | nil => intro b; exact Or.inl rfl
  | cons x rest ih =>
    intro b
    rw [binaryheap_first_from]
    by_cases hc : 0 < f x b
    · rw [if_pos hc]
      rcases ih x with h | h
      · exact Or.inr (by rw [h]; exact List.mem_cons_self x rest)
      · exact Or.inr (List.mem_cons_of_mem x h)
    · rw [if_neg hc]
      rcases ih b with h | h
      · exact Or.inl h
      · exact Or.inr (List.mem_cons_of_mem x h)

/-- `binaryheap_first` returns a member of the node array. -/
theorem binaryheap_first_mem (f : Nat → Nat → Int) (l : List Nat) (m : Nat)
    (hm : binaryheap_first f l = some m) : m ∈ l := by
  cases l with
  | nil => simp [binaryheap_first] at hm
  | cons x rest =>
    rw [binaryheap_first] at hm
    have h2 : binaryheap_first_from f x rest = m := by simpa using hm
    rcases binaryheap_first_from_mem f rest x with h | h
    · rw [← h2, h]; exact List.mem_cons_self x rest
    · rw [← h2]; exact List.mem_cons_of_mem x h

/-- One steady-state merge call from an invariant state: the call succeeds
and returns `merge_heap_emit` of the post state, the invariant survives
with one unit of fuel consumed, and the newly emitted tuple (when one
exists) does not precede the previously emitted one under the sort keys. -/
theorem merge_step_sorted (cfg : ChunkConfig) (n : Nat) (rs : RunState)
    (h : List Nat) (hinv : MergeInv cfg (n + 1) rs h) (hne : h ≠ []) :
    ∃ rs2 h2,
      decompress_chunk_exec_merge cfg rs = .ok (merge_heap_emit cfg rs2, rs2) ∧
      rs2.custom_ps = rs.custom_ps ∧
      MergeInv cfg n rs2 h2 ∧
      (∀ tprev tnext, merge_heap_emit cfg rs = some tprev →
        merge_heap_emit cfg rs2 = some tnext →
        lexCompare cfg.sortkeys tprev tnext ≤ 0) := by
  obtain ⟨hh, hnd, hids⟩ := hinv
  have hanti := heap_compare_slots_antisym cfg rs.batch_states
  have htrans : ∀ x ∈ h, ∀ y ∈ h, ∀ z ∈ h,
      heap_compare_slots cfg rs.batch_states x y ≤ 0 →
      heap_compare_slots cfg rs.batch_states y z ≤ 0 →
      heap_compare_slots cfg rs.batch_states x z ≤ 0 := by
    intro x _ y hy z _ u1 u2
    exact heap_compare_slots_trans cfg rs.batch_states x y z (hids y hy).2.1 u1 u2
  obtain ⟨i0, hi0⟩ : ∃ i0,
      binaryheap_first (heap_compare_slots cfg rs.batch_states) h = some i0 := by
    cases h with
    | nil => exact absurd rfl hne
    | cons x rest => exact ⟨_, rfl⟩
  obtain ⟨hi0mem, hi0max⟩ :=
    binaryheap_first_max _ hanti h htrans i0 hi0
  obtain ⟨hi0lt, hi0slot, hi0sorted⟩ := hids i0 hi0mem
  obtain ⟨t0, ht0⟩ := Option.ne_none_iff_exists'.mp hi0slot
  have hemit0 : merge_heap_emit cfg rs = some t0 := by
    rw [merge_heap_emit_eq cfg rs h hh hne i0 hi0, ht0]
  have hkey : ∀ j ∈ h, ∀ tj,
      (rs.batch_states.getD j dummy_batch).output_slot = some tj →
      lexCompare cfg.sortkeys t0 tj ≤ 0 := by
    intro j hj tj htj
    have hcmp := hi0max j hj
    unfold heap_compare_slots at hcmp
    rw [htj, ht0] at hcmp
    dsimp only at hcmp
    rw [lexCompare_antisym]
    omega
  rw [batchSortedNB, if_neg hi0slot] at hi0sorted
  cases hdec : decompress_next_tuple_from_batch cfg.missingattr
      (rs.batch_states.getD i0 dummy_batch) with
  | error msg =>
    rw [hdec] at hi0sorted
    exact absurd hi0sorted (by simp)
  | ok bs2 =>
    rw [hdec] at hi0sorted
    dsimp only at hi0sorted
    rw [Bool.and_eq_true] at hi0sorted
    obtain ⟨hpair, hsorted2⟩ := hi0sorted
    have hadv : merge_heap_advance cfg rs h i0 =
        if bs2.output_slot = none then
          .ok { rs with
                  batch_states := rs.batch_states.set i0 bs2
                  merge_heap := some (h.erase i0) }
        else
          .ok { rs with
                  batch_states := rs.batch_states.set i0 bs2
                  merge_heap := some h } := by
      unfold merge_heap_advance
      dsimp only
      rw [hdec, exceptBindOk]
    have hslot_ne : ∀ id, id ≠ i0 →
        (rs.batch_states.set i0 bs2).getD id dummy_batch =
          rs.batch_states.getD id dummy_batch :=
      fun id hid => getD_set_ne _ _ _ _ _ (fun he => hid he.symm)
    have hslot_i0 : (rs.batch_states.set i0 bs2).getD i0 dummy_batch = bs2 :=
      getD_set_self _ _ _ _ hi0lt
    by_cases hbs2 : bs2.output_slot = none
    · -- the root batch is exhausted: its id is removed from the heap
      rw [if_pos hbs2] at hadv
      refine ⟨{ rs with
                  batch_states := rs.batch_states.set i0 bs2
                  merge_heap := some (h.erase i0) }, h.erase i0, ?_, rfl, ?_, ?_⟩
      · rw [exec_merge_advance_eq cfg rs h i0 hh hne hi0, hadv, exceptDotBindOk]
      · refine ⟨rfl, hnd.erase i0, ?_⟩
        intro id hid
        have hid2 := (List.Nodup.mem_erase_iff hnd).mp hid
        obtain ⟨hlt, hslot, hsort⟩ := hids id hid2.2
        dsimp only
        rw [hslot_ne id hid2.1]
        exact ⟨by simpa using hlt, hslot,
          batchSortedNB_mono cfg.missingattr cfg.sortkeys n _ hsort⟩
      · intro tprev tnext hprev hnext
        rw [hemit0] at hprev
        injection hprev with hprev2
        subst hprev2
        by_cases herase : h.erase i0 = []
        · rw [merge_heap_emit_nil cfg _ (by dsimp only; rw [herase])] at hnext
          exact absurd hnext (by simp)
        · obtain ⟨j, hj⟩ : ∃ j, binaryheap_first
              (heap_compare_slots cfg (rs.batch_states.set i0 bs2))
              (h.erase i0) = some j := by
            cases he : h.erase i0 with
            | nil => exact absurd he herase
            | cons x rest => exact ⟨_, rfl⟩
          have hjmem := binaryheap_first_mem _ _ _ hj
          have hjmem2 := (List.Nodup.mem_erase_iff hnd).mp hjmem
          rw [merge_heap_emit_eq cfg _ (h.erase i0) rfl herase j hj] at hnext
          dsimp only at hnext
          rw [hslot_ne j hjmem2.1] at hnext
          exact hkey j hjmem2.2 tnext hnext
    · -- the root batch stays: its entry is replaced in place
      rw [if_neg hbs2] at hadv
      obtain ⟨u, hu⟩ := Option.ne_none_iff_exists'.mp hbs2
      have hpair2 : lexCompare cfg.sortkeys t0 u ≤ 0 := by
        rw [ht0, hu] at hpair
        dsimp only at hpair
        exact of_decide_eq_true hpair
      refine ⟨{ rs with
                  batch_states := rs.batch_states.set i0 bs2
                  merge_heap := some h }, h, ?_, rfl, ?_, ?_⟩
      · rw [exec_merge_advance_eq cfg rs h i0 hh hne hi0, hadv, exceptDotBindOk]
      · refine ⟨rfl, hnd, ?_⟩
        intro id hid
        dsimp only
        by_cases hidi : id = i0
        · subst hidi
          rw [hslot_i0]
          exact ⟨by simpa using hi0lt, hbs2, hsorted2⟩
        · obtain ⟨hlt, hslot, hsort⟩ := hids id hid
          rw [hslot_ne id hidi]
          exact ⟨by simpa using hlt, hslot,
            batchSortedNB_mono cfg.missingattr cfg.sortkeys n _ hsort⟩
      · intro tprev tnext hprev hnext
        rw [hemit0] at hprev
        injection hprev with hprev2
        subst hprev2
        obtain ⟨j, hj⟩ : ∃ j, binaryheap_first
            (heap_compare_slots cfg (rs.batch_states.set i0 bs2)) h = some j := by
          cases he : h with
          | nil => exact absurd he hne
          | cons x rest => exact ⟨_, rfl⟩
        rw [merge_heap_emit_eq cfg _ h rfl hne j hj] at hnext
        dsimp only at hnext
        by_cases hji : j = i0
        · subst hji
          rw [hslot_i0, hu] at hnext
          injection hnext with hnext2
          subst hnext2
          exact hpair2
        · rw [hslot_ne j hji] at hnext
          have hjmem := binaryheap_first_mem _ _ _ hj
          exact hkey j hjmem tnext hnext

/-- Chained `next()` calls from an invariant streaming state: every output
extends a sorted chain below the previously emitted tuple. -/
theorem merge_run_chain (cfg : ChunkConfig) (ps : PlanQual) (intr : Bool)
    (fuel : Nat) :
    ∀ calls n rs h tprev, calls ≤ n →
      rs.custom_ps = true → cfg.segment_merge_append = true →
      MergeInv cfg n rs h →
      merge_heap_emit cfg rs = some tprev →
      ∀ outs, decompress_chunk_run cfg ps intr fuel calls rs = .ok outs →
      List.Chain' (fun a b => lexCompare cfg.sortkeys a b ≤ 0)
        (tprev :: outs) := by
  intro calls
  induction calls with
  | zero =>
    intro n rs h tprev _ _ _ _ _ outs houts
    rw [decompress_chunk_run] at houts
    cases houts
    simp
  | succ m ih =>
    intro n rs h tprev hn hps hm hinv hemit outs houts
    cases n with
    | zero => omega
    | succ n1 =>
      have hne : h ≠ [] := by
        intro he
        subst he
        rw [merge_heap_emit_nil cfg rs hinv.1] at hemit
        exact absurd hemit (by simp)
      obtain ⟨rs2, h2, hstep, hcustom, hinv2, hord⟩ :=
        merge_step_sorted cfg n1 rs h hinv hne
      rw [decompress_chunk_run,
        decompress_chunk_exec_merge_reduce cfg ps intr fuel rs hps hm,
        hstep, exceptBindOk] at houts
      dsimp only at houts
      cases hemit2 : merge_heap_emit cfg rs2 with
      | none =>
        rw [hemit2] at houts
        cases houts
        simp
      | some tnext =>
        rw [hemit2] at houts
        dsimp only at houts
        cases hrun : decompress_chunk_run cfg ps intr fuel m rs2 with
        | error msg =>
          rw [hrun, exceptBindErr] at houts
          exact absurd houts (by simp)
        | ok rest =>
          rw [hrun, exceptBindOk] at houts
          cases houts
          have hchain := ih n1 rs2 h2 tnext (by omega)
            (by rw [hcustom]; exact hps) hm hinv2 hemit2 rest hrun
          exact List.chain'_cons.mpr ⟨hord tprev tnext hemit hemit2, hchain⟩

/-- C2: in merge mode the output stream is globally ordered under the
query's sort keys.  Each call returns the heap root's tuple; before the
following call that batch is advanced by one decode and its heap entry is
replaced, or removed when the batch is exhausted, so every pair of
consecutive returned tuples compares ≤ 0 under the configured sort-key
comparators.  The hypotheses record that heap construction succeeded and
that every batch placed on the heap holds a tuple and decodes, for the
length of the run, into a stream respecting the sort keys — the premise
under which the planner enables merge mode. -/
theorem C2_merge_output_sorted (cfg : ChunkConfig) (ps : PlanQual)
    (intr : Bool) (fuel calls : Nat) (rs0 rs1 : RunState) (h1 : List Nat)
    (hm : cfg.segment_merge_append = true) (hps : rs0.custom_ps = true)
    (hheap : rs0.merge_heap = none)
    (hinit : merge_heap_init cfg rs0 = .ok rs1)
    (hps1 : rs1.custom_ps = true)
    (hh1 : rs1.merge_heap = some h1) (hnd : h1.Nodup)
    (hgood : ∀ id ∈ h1, id < rs1.batch_states.length ∧
      (rs1.batch_states.getD id dummy_batch).output_slot ≠ none ∧
      batchSortedNB cfg.missingattr cfg.sortkeys calls
        (rs1.batch_states.getD id dummy_batch) = true)
    (outs : List Tuple)
    (houts : decompress_chunk_run cfg ps intr fuel calls rs0 = .ok outs) :
    outs.Chain' (fun a b => lexCompare cfg.sortkeys a b ≤ 0) := by
  cases calls with
  | zero =>
    rw [decompress_chunk_run] at houts
    cases houts
    simp
  | succ m =>
    have hexec1 : decompress_chunk_exec cfg ps intr fuel rs0 =
        .ok (merge_heap_emit cfg rs1, rs1) := by
      rw [decompress_chunk_exec_merge_reduce cfg ps intr fuel rs0 hps hm]
      unfold decompress_chunk_exec_merge
      rw [hheap]
      dsimp only
      rw [hinit, exceptDotBindOk]
    rw [decompress_chunk_run, hexec1, exceptBindOk] at houts
    dsimp only at houts
    cases hemit1 : merge_heap_emit cfg rs1 with
    | none =>
      rw [hemit1] at houts
      cases houts
      simp
    | some t0 =>
      rw [hemit1] at houts
      dsimp only at houts
      cases hrun : decompress_chunk_run cfg ps intr fuel m rs1 with
      | error msg =>
        rw [hrun, exceptBindErr] at houts
        exact absurd houts (by simp)
      | ok rest =>
        rw [hrun, exceptBindOk] at houts
        cases houts
        have hinv : MergeInv cfg m rs1 h1 := by
          refine ⟨hh1, hnd, ?_⟩
          intro id hid
          obtain ⟨hlt, hslot, hsort⟩ := hgood id hid
          exact ⟨hlt, hslot,
            batchSortedNB_mono cfg.missingattr cfg.sortkeys m _ hsort⟩
        exact merge_run_chain cfg ps intr fuel m m rs1 h1 t0 le_rfl hps1 hm
          hinv hemit1 rest hrun

/-- Decidable check used by the `C2` witness: every id on `cfgMergeW`'s
heap is in range, holds a tuple, and decodes sorted for 20 steps. -/
def c2good (r : RunState) : Bool :=
  [0, 1].all fun id =>
    decide (id < r.batch_states.length) &&
    (r.batch_states.getD id dummy_batch).output_slot.isSome &&
    batchSortedNB cfgMergeW.missingattr cfgMergeW.sortkeys 20
      (r.batch_states.getD id dummy_batch)

/-- Witness for `C2_merge_output_sorted`: the six-tuple merge output of
`cfgMergeW` is chained under its descending sort key, obtained by applying
the theorem at the concrete configuration. -/
theorem C2_merge_output_sorted_witness :
    ([[some 10], [some 9], [some 8], [some 7], [some 3], [some 2]] :
      List Tuple).Chain'
      (fun a b => lexCompare cfgMergeW.sortkeys a b ≤ 0) := by
  cases hinit : merge_heap_init cfgMergeW rsFreshW with
  | error msg =>
    have hok : exceptOk (merge_heap_init cfgMergeW rsFreshW) = true := by decide
    rw [hinit] at hok
    simp [exceptOk] at hok
  | ok rs1 =>
    have hh1 : rs1.merge_heap = some [0, 1] := by
      have hx : (merge_heap_init cfgMergeW rsFreshW).toOption.map
          (fun r => r.merge_heap) = some (some [0, 1]) := by decide
      rw [hinit] at hx
      simpa [Except.toOption] using hx
    have hps1 : rs1.custom_ps = true := by
      have hx : (merge_heap_init cfgMergeW rsFreshW).toOption.map
          (fun r => r.custom_ps) = some true := by decide
      rw [hinit] at hx
      simpa [Except.toOption] using hx
    have hgood : ∀ id ∈ [0, 1], id < rs1.batch_states.length ∧
        (rs1.batch_states.getD id dummy_batch).output_slot ≠ none ∧
        batchSortedNB cfgMergeW.missingattr cfgMergeW.sortkeys 20
          (rs1.batch_states.getD id dummy_batch) = true := by
      have hx : (merge_heap_init cfgMergeW rsFreshW).toOption.map c2good =
          some true := by decide
      rw [hinit] at hx
      simp only [Except.toOption, Option.map_some] at hx
      have hc : c2good rs1 = true := Option.some.inj hx
      simp only [c2good, List.all_cons, List.all_nil, Bool.and_true,
        Bool.and_eq_true, decide_eq_true_eq, Option.isSome_iff_ne_none] at hc
      intro id hid
      simp only [List.mem_cons, List.not_mem_nil, or_false] at hid
      rcases hid with h0 | h1
      · subst h0
        exact ⟨hc.1.1.1, hc.1.1.2, hc.1.2⟩
      · subst h1
        exact ⟨hc.2.1.1, hc.2.1.2, hc.2.2⟩
    have houts : decompress_chunk_run cfgMergeW psNoneW false 9 20 rsFreshW =
        .ok [[some 10], [some 9], [some 8], [some 7], [some 3], [some 2]] := by
      decide
    exact C2_merge_output_sorted cfgMergeW psNoneW false 9 20 rsFreshW rs1
      [0, 1] rfl rfl rfl hinit hps1 hh1 (by decide) hgood _ houts

end TS
